import Mathlib

/-!
# Faucet chain client: address validation, uint256 encoding, polling

A shallow embedding of the Starknet backend of the faucet
(`chains/starknet-sepolia/validator.go`, `chains/starknet-sepolia/client.go`,
`chains/chain.go`, `pkg/utils/validator.go`) together with the properties
proved about it.

Conventions of the embedding:

* a Go `string` is its sequence of bytes, `List Nat` (each byte a number below 256);
  `len(s)` is `List.length`, `s[2:]` is `List.drop 2`;
* a Go `error` result is an `Option`: `none` is `nil`, `some e` is the error `e`;
* a `*big.Int` is an `Int`;
* a run-time panic (a slice out of range) is the result `none` of an `Option`-valued function.
-/

namespace Faucet

set_option maxRecDepth 4096

/-! ## Go strings -/

/-- A Go string: the sequence of its bytes. -/
abbrev GoString := List Nat

/-- The bytes of a string literal made of ASCII characters only. -/
def ascii (s : String) : GoString := s.toList.map Char.toNat

/-- Go `strings.HasPrefix(s, p)`: `len(s) >= len(p) && s[:len(p)] == p`. -/
def HasPrefix (s p : GoString) : Bool :=
  decide (s.length ≥ p.length) && (s.take p.length == p)

/-- Go `utf8.RuneError`, the replacement character U+FFFD. -/
def RuneError : Nat := 0xFFFD

/-- The width of the encoding announced by a leading byte from `0xC2` to `0xF4`
(`first[s0] & 7` in Go's `unicode/utf8`). -/
def leadSize (s0 : Nat) : Nat := if s0 < 0xE0 then 2 else if s0 < 0xF0 then 3 else 4

/-- The least second byte accepted after the leading byte `s0`
(`acceptRanges[first[s0] >> 4].lo`). -/
def acceptLo (s0 : Nat) : Nat := if s0 = 0xE0 then 0xA0 else if s0 = 0xF0 then 0x90 else 0x80

/-- The greatest second byte accepted after the leading byte `s0`
(`acceptRanges[first[s0] >> 4].hi`). -/
def acceptHi (s0 : Nat) : Nat := if s0 = 0xED then 0x9F else if s0 = 0xF4 then 0x8F else 0xBF

/-- Go `utf8.DecodeRuneInString`: the first rune of `s` and its width in bytes.
An empty string gives `(RuneError, 0)`; an invalid or short encoding gives
`(RuneError, 1)`. The masks `s0&0x1F`, `s1&0x3F` and the shifts of the Go code are
written with `%` and `*`. -/
def DecodeRuneInString (s : GoString) : Nat × Nat :=
  match s with
  | [] => (RuneError, 0)
  | s0 :: rest =>
    if s0 < 0x80 then (s0, 1)                         -- ASCII
    else if s0 < 0xC2 ∨ 0xF4 < s0 then (RuneError, 1) -- first[s0] == xx
    else if rest.length + 1 < leadSize s0 then (RuneError, 1)
    else
      match rest with
      | [] => (RuneError, 1)
      | s1 :: rest1 =>
        if s1 < acceptLo s0 ∨ acceptHi s0 < s1 then (RuneError, 1)
        else if leadSize s0 ≤ 2 then (s0 % 0x20 * 0x40 + s1 % 0x40, 2)
        else
          match rest1 with
          | [] => (RuneError, 1)
          | s2 :: rest2 =>
            if s2 < 0x80 ∨ 0xBF < s2 then (RuneError, 1)
            else if leadSize s0 ≤ 3 then
              (s0 % 0x10 * 0x1000 + s1 % 0x40 * 0x40 + s2 % 0x40, 3)
            else
              match rest2 with
              | [] => (RuneError, 1)
              | s3 :: _ =>
                if s3 < 0x80 ∨ 0xBF < s3 then (RuneError, 1)
                else (s0 % 0x08 * 0x40000 + s1 % 0x40 * 0x1000 + s2 % 0x40 * 0x40
                        + s3 % 0x40, 4)

/-- The loop of Go `utf8.RuneCountInString`: `skip` is the number of bytes still
belonging to the rune counted last. -/
def runeCountFrom : GoString → Nat → Nat
  | [], _ => 0
  | _ :: rest, skip + 1 => runeCountFrom rest skip
  | c :: rest, 0 => 1 + runeCountFrom rest ((DecodeRuneInString (c :: rest)).2 - 1)

/-- Go `utf8.RuneCountInString`: the number of runes of `s`; erroneous and short
encodings count as single runes of width one byte. -/
def RuneCountInString (s : GoString) : Nat := runeCountFrom s 0

/-- Go `fmt` padding of a string operand on the left (`padString` without the
minus flag): `wid - RuneCountInString(s)` copies of the pad byte, which is `0`
when the zero flag is set and a space otherwise. -/
def fmtPadString (zero : Bool) (wid : Nat) (s : GoString) : GoString :=
  List.replicate (wid - RuneCountInString s) (if zero then 0x30 else 0x20) ++ s

/-- Go `fmt.Sprintf("%064s", s)`: flag `0`, width 64, verb `s`. The pad byte is
`0`; were it a space, `NormalizeAddress` would replace it by `0` right after
(`ReplaceAllByte_fmtPadString`). -/
def Sprintf064s (s : GoString) : GoString := fmtPadString true 64 s

/-- Go `strings.ReplaceAll(s, old, new)` for one-byte `old` and `new`. -/
def ReplaceAllByte (s : GoString) (old new : Nat) : GoString :=
  s.map (fun c => if c = old then new else c)

/-! ## Regular expressions (the fragment used by the validator) -/

/-- Syntax of the regular expressions needed for `addressRegex`. -/
inductive Regexp where
  | beginText                               -- ^
  | endText                                 -- $
  | lit (b : Nat)                           -- a literal ASCII character
  | charClass (ranges : List (Nat × Nat))   -- [lo-hi ...]
  | emptyMatch                              -- matches the empty string
  | concat (r s : Regexp)
  | alternate (r s : Regexp)

/-- Bounded repetition `r{min,max}`, unfolded as Go's `regexp/syntax` does:
`min` copies of `r` followed by `max - min` nested optional copies. -/
def Regexp.rep (r : Regexp) : Nat → Nat → Regexp
  | 0, 0 => .emptyMatch
  | 0, max + 1 => .alternate (.concat r (Regexp.rep r 0 max)) .emptyMatch
  | min + 1, max + 1 => .concat r (Regexp.rep r min max)
  | _ + 1, 0 => .charClass []

/-- Backtracking matcher: does `re` match at the current position, with the
continuation `k` deciding on what follows? `atStart` tells whether the current
position is the beginning of the text. -/
def Regexp.matchHere : Regexp → Bool → GoString → (Bool → GoString → Bool) → Bool
  | .beginText, atStart, s, k => atStart && k atStart s
  | .endText, atStart, s, k => s.isEmpty && k atStart s
  | .lit b, _, s, k =>
    match s with
    | [] => false
    | c :: rest => (c == b) && k false rest
  | .charClass ranges, _, s, k =>
    match s with
    | [] => false
    | c :: rest => ranges.any (fun r => decide (r.1 ≤ c) && decide (c ≤ r.2)) && k false rest
  | .emptyMatch, atStart, s, k => k atStart s
  | .concat r1 r2, atStart, s, k =>
    Regexp.matchHere r1 atStart s (fun a t => Regexp.matchHere r2 a t k)
  | .alternate r1 r2, atStart, s, k =>
    Regexp.matchHere r1 atStart s k || Regexp.matchHere r2 atStart s k

/-- Search for a match starting at the current position or at any later one. -/
def Regexp.searchFrom (re : Regexp) : Bool → GoString → Bool
  | atStart, [] => re.matchHere atStart [] (fun _ _ => true)
  | atStart, c :: rest =>
    re.matchHere atStart (c :: rest) (fun _ _ => true) || Regexp.searchFrom re false rest

/-- Go `(*Regexp).MatchString`: does `s` contain a match of `re`? -/
def Regexp.MatchString (re : Regexp) (s : GoString) : Bool := re.searchFrom true s

/-! ## `chains/starknet-sepolia/validator.go` -/

/-- The character class `[0-9a-fA-F]`. -/
def hexClass : Regexp := .charClass [(0x30, 0x39), (0x61, 0x66), (0x41, 0x46)]

/-- The pattern `^0x[0-9a-fA-F]{1,64}$` of `addressRegex`. -/
def addressRegex : Regexp :=
  .concat .beginText (.concat (.lit 0x30) (.concat (.lit 0x78)
    (.concat (hexClass.rep 1 64) .endText)))

/-- The errors of `ValidateAddress`, one per message. -/
inductive AddressError where
  | emptyAddress     -- "address cannot be empty"
  | missingPrefix    -- "address must start with 0x"
  | invalidFormat    -- "invalid Starknet address format"
  deriving DecidableEq, Repr

/-- `ValidateAddress` of `validator.go`. -/
def ValidateAddress (address : GoString) : Option AddressError :=
  if address = [] then some .emptyAddress
  else if !HasPrefix address (ascii "0x") then some .missingPrefix
  else if !addressRegex.MatchString address then some .invalidFormat
  else none

/-- `NormalizeAddress` of `validator.go`. The result is `none` when the slice
`address[2:]` is out of range (the Go code panics). -/
def NormalizeAddress (address : GoString) : Option GoString :=
  if address.length ≥ 66 then some address
  else if address.length < 2 then none
  else
    let hexPart := address.drop 2
    let paddedHex := Sprintf064s hexPart
    let paddedHex := ReplaceAllByte paddedHex 0x20 0x30
    some (ascii "0x" ++ paddedHex)

/-- `NormalizeStarknetAddress` of `pkg/utils/validator.go`, a wrapper. -/
def NormalizeStarknetAddress (address : GoString) : Option GoString :=
  NormalizeAddress address

/-! ## uint256 words (`client.go`) -/

/-- The Stark field prime `2^251 + 17 * 2^192 + 1`; a felt is a number below it. -/
def FELT_P : Nat := 2 ^ 251 + 17 * 2 ^ 192 + 1

/-- A field element, by its canonical representative. -/
abbrev Felt := Fin FELT_P

/-- `new(felt.Felt).SetBigInt(v)`: `v` reduced modulo the field prime. -/
def Felt.SetBigInt (v : Int) : Felt :=
  ⟨(v % (FELT_P : Int)).toNat, by
    have h : (0 : Int) < (FELT_P : Int) := by decide
    have h1 := Int.emod_nonneg v (ne_of_gt h)
    have h2 := Int.emod_lt_of_pos v h
    omega⟩

/-- `f.BigInt(big.NewInt(0))`: the canonical representative as an integer. -/
def Felt.BigInt (f : Felt) : Int := (f.val : Int)

/-- The low word of `TransferTokens`:
`new(big.Int).And(amount, new(big.Int).Sub(new(big.Int).Lsh(big.NewInt(1), 128), big.NewInt(1)))`. -/
def uint256Low (amount : Int) : Int :=
  Int.land amount (((1 : Int) <<< (128 : Int)) - 1)

/-- The high word of `TransferTokens`: `new(big.Int).Rsh(amount, 128)`. -/
def uint256High (amount : Int) : Int :=
  Int.shiftRight amount 128

/-- The reconstruction of `GetBalance`:
`new(big.Int).Add(low, new(big.Int).Lsh(high, 128))`. -/
def uint256FromWords (low high : Int) : Int :=
  low + high <<< (128 : Int)

/-! ## The address format in the words of the specification -/

/-- A hexadecimal character: `0-9`, `a-f` or `A-F`. -/
def isHexChar (c : Nat) : Bool :=
  (decide (0x30 ≤ c) && decide (c ≤ 0x39)) || (decide (0x61 ≤ c) && decide (c ≤ 0x66))
    || (decide (0x41 ≤ c) && decide (c ≤ 0x46))

/-- The decision the specification describes for `validateAddress`: the empty
string, a string not starting with `0x`, a remainder that is not 1 to 64
hexadecimal characters, and otherwise no error. -/
def ValidateAddress_spec (s : GoString) : Option AddressError :=
  if s = [] then some .emptyAddress
  else if s.take 2 ≠ ascii "0x" then some .missingPrefix
  else if 1 ≤ (s.drop 2).length ∧ (s.drop 2).length ≤ 64 ∧ (s.drop 2).all isHexChar = true
  then none
  else some .invalidFormat

/-- The value of a hexadecimal digit (`a` and `A` are both ten). -/
def hexDigitValue (c : Nat) : Nat :=
  if 0x30 ≤ c ∧ c ≤ 0x39 then c - 0x30
  else if 0x61 ≤ c ∧ c ≤ 0x66 then c - 0x61 + 10
  else c - 0x41 + 10

/-- The number a string of hexadecimal digits denotes. -/
def hexValue (digits : GoString) : Nat :=
  digits.foldl (fun acc c => 16 * acc + hexDigitValue c) 0

/-- The hexadecimal digits without their leading zeros. -/
def stripLeadingZeros (digits : GoString) : GoString :=
  digits.dropWhile (fun c => c == 0x30)

/-! ## The SDK parser `utils.HexToFelt`

The client turns address and hash strings into field elements with
`utils.HexToFelt` of the starknet.go SDK, which is not part of the repository.
In the embedding the parser is a collaborator of the client (a field of
`Client`); every general theorem holds for any parser. `HexToFelt` below is a
model of the SDK function, used for the concrete runs: the text is read as
Go's `(*big.Int).SetString` reads it with base 0 and, when that fails, with base
16; the sign is dropped (the bytes of a `big.Int` are those of its absolute
value); an absolute value that is not below the field prime is rejected. -/

/-- Digit value of a character in `math/big` number scanning with base `b`;
`63` (`MaxBase + 1`) for a character that is no digit. -/
def digitVal (b ch : Nat) : Nat :=
  if 0x30 ≤ ch ∧ ch ≤ 0x39 then ch - 0x30
  else if 0x61 ≤ ch ∧ ch ≤ 0x7A then ch - 0x61 + 10
  else if 0x41 ≤ ch ∧ ch ≤ 0x5A then (if b ≤ 36 then ch - 0x41 + 10 else ch - 0x41 + 36)
  else 63

/-- State of the digit loop of `nat.scan`: the value read so far, the number of
digits, the kind of the previous character (`0x30` a digit, `0x5F` a separator,
`0x2E` anything else) and whether a misplaced separator was seen. -/
structure ScanState where
  value : Nat
  count : Nat
  prev : Nat
  invalSep : Bool
  deriving DecidableEq, Repr

/-- The digit loop of `nat.scan`: returns the final state and the unread rest.
`base0` tells that the base argument was 0 (separators `_` are allowed), `b` is
the actual base. -/
def scanDigits (base0 : Bool) (b : Nat) : GoString → ScanState → ScanState × GoString
  | [], st => (st, [])
  | ch :: rest, st =>
    if ch = 0x5F ∧ base0 = true then
      scanDigits base0 b rest
        { st with invalSep := st.invalSep || decide (st.prev ≠ 0x30), prev := 0x5F }
    else if digitVal b ch ≥ b then (st, ch :: rest)
    else
      scanDigits base0 b rest
        { st with value := st.value * b + digitVal b ch, count := st.count + 1, prev := 0x30 }

/-- The choice of the actual base in `nat.scan` when the base argument is 0:
the actual base, the kind of base mark found (`0x62`, `0x6F`, `0x78` for
`0b`, `0o`, `0x`; `0x30` for a leading `0`; `0` for none), the initial digit
count, the initial previous character and the rest of the text. -/
def scanBase (s : GoString) : Nat × Nat × Nat × Nat × GoString :=
  match s with
  | [] => (10, 0, 0, 0x2E, [])
  | c0 :: rest0 =>
    if c0 = 0x30 then
      match rest0 with
      | [] => (10, 0, 1, 0x30, [])
      | ch :: rest =>
        if ch = 0x62 ∨ ch = 0x42 then (2, 0x62, 0, 0x30, rest)
        else if ch = 0x6F ∨ ch = 0x4F then (8, 0x6F, 0, 0x30, rest)
        else if ch = 0x78 ∨ ch = 0x58 then (16, 0x78, 0, 0x30, rest)
        else (8, 0x30, 0, 0x30, ch :: rest)
    else (10, 0, 0, 0x2E, c0 :: rest0)

/-- Go `nat.scan(r, base, false)` for base 0 or a base from 2 to 36: the value
and the unread rest of the text, or `none` for an error (no digits, or a
misplaced separator). -/
def natScan (base : Nat) (s : GoString) : Option (Nat × GoString) :=
  let start : Nat × Nat × Nat × Nat × GoString :=
    if base = 0 then scanBase s else (base, 0, 0, 0x2E, s)
  let b := start.1
  let mark := start.2.1
  let fin := scanDigits (decide (base = 0)) b start.2.2.2.2
    { value := 0, count := start.2.2.1, prev := start.2.2.2.1, invalSep := false }
  let sepErr : Bool := fin.1.invalSep || decide (fin.1.prev = 0x5F)
  if fin.1.count = 0 then
    if mark = 0x30 then (if sepErr then none else some (0, fin.2))
    else none
  else if sepErr then none
  else some (fin.1.value, fin.2)

/-- Go `(*big.Int).SetString(s, base)`: an optional sign, the number, and
nothing after it; `none` when the text is not a number. -/
def bigIntSetString (s : GoString) (base : Nat) : Option Int :=
  match s with
  | [] => none
  | ch :: rest =>
    let body := if ch = 0x2D ∨ ch = 0x2B then rest else ch :: rest
    match natScan base body with
    | none => none
    | some (v, unread) =>
      if unread ≠ [] then none
      else some (if ch = 0x2D then -(v : Int) else (v : Int))

/-- Model of `utils.HexToFelt` (see the section comment). -/
def HexToFelt (hex : GoString) : Option Felt :=
  match (bigIntSetString hex 0).orElse (fun _ => bigIntSetString hex 16) with
  | none => none
  | some v => if FELT_P ≤ v.natAbs then none else some (Felt.SetBigInt (v.natAbs : Int))

/-! ## `chains/starknet-sepolia/client.go` -/

/-- `rpc.InvokeFunctionCall`. -/
structure InvokeFunctionCall where
  ContractAddress : Felt
  FunctionName : GoString
  CallData : List Felt
  deriving DecidableEq

/-- `rpc.FunctionCall`. -/
structure FunctionCall where
  ContractAddress : Felt
  EntryPointSelector : Felt
  Calldata : List Felt
  deriving DecidableEq

/-- The client with its collaborators: the SDK parser and selector function,
the token table, the account (which signs and submits invoke transactions) and
the provider (read-only calls). A collaborator that fails returns `none`. -/
structure Client where
  HexToFelt : GoString → Option Felt
  GetSelectorFromNameFelt : GoString → Felt
  tokenAddrs : GoString → Option Felt
  BuildAndSendInvokeTxn : List InvokeFunctionCall → Option GoString
  Call : FunctionCall → GoString → Option (List Felt)

/-- The errors of `TransferTokens`. -/
inductive TransferError where
  | invalidRecipient    -- "invalid recipient address: %w"
  | unsupportedToken    -- "unsupported token: %s"
  | transactionFailed   -- "transaction failed: %w"
  deriving DecidableEq, Repr

/-- The pair `(string, error)` returned by `TransferTokens`. -/
inductive TransferResult where
  | hash (txHash : GoString)
  | error (e : TransferError)
  deriving DecidableEq, Repr

/-- `Client.TransferTokens`. Besides the result, the embedding returns the list
of invoke transactions handed to the account, that is the outbound calls. -/
def TransferTokens (c : Client) (recipient token : GoString) (amount : Int) :
    TransferResult × List (List InvokeFunctionCall) :=
  match c.HexToFelt recipient with
  | none => (.error .invalidRecipient, [])
  | some recipientFelt =>
    match c.tokenAddrs token with
    | none => (.error .unsupportedToken, [])
    | some tokenAddress =>
      let low := uint256Low amount
      let high := uint256High amount
      let lowFelt := Felt.SetBigInt low
      let highFelt := Felt.SetBigInt high
      let call : InvokeFunctionCall :=
        { ContractAddress := tokenAddress
          FunctionName := ascii "transfer"
          CallData := [recipientFelt, lowFelt, highFelt] }
      match c.BuildAndSendInvokeTxn [call] with
      | none => (.error .transactionFailed, [[call]])
      | some txHash => (.hash txHash, [[call]])

/-- The errors of `GetBalance`. -/
inductive BalanceError where
  | invalidAddress     -- "invalid address: %w"
  | unsupportedToken   -- "unsupported token: %s"
  | callFailed         -- "failed to get balance: %w"
  | unexpectedLength   -- "unexpected balance result length"
  deriving DecidableEq, Repr

/-- The pair `(*big.Int, error)` returned by `GetBalance`. -/
inductive BalanceResult where
  | balance (v : Int)
  | error (e : BalanceError)
  deriving DecidableEq, Repr

/-- `Client.GetBalance`. -/
def GetBalance (c : Client) (address token : GoString) : BalanceResult :=
  match c.HexToFelt address with
  | none => .error .invalidAddress
  | some addrFelt =>
    match c.tokenAddrs token with
    | none => .error .unsupportedToken
    | some tokenAddress =>
      let balanceSelector := c.GetSelectorFromNameFelt (ascii "balanceOf")
      match c.Call
          { ContractAddress := tokenAddress
            EntryPointSelector := balanceSelector
            Calldata := [addrFelt] } (ascii "latest") with
      | none => .error .callFailed
      | some result =>
        if h : result.length < 2 then .error .unexpectedLength
        else
          let low := (result.get ⟨0, by omega⟩).BigInt
          let high := (result.get ⟨1, by omega⟩).BigInt
          .balance (uint256FromWords low high)

/-- A transaction receipt, reduced to whether the network accepted the
transaction or reverted it. -/
structure Receipt where
  accepted : Bool
  deriving DecidableEq, Repr

/-- What `provider.TransactionReceipt` returns: an error, or a receipt pointer
that may be nil. -/
inductive FetchResult where
  | failed
  | receipt (r : Option Receipt)
  deriving DecidableEq, Repr

/-- One pass through the `select` of the polling loop, as its environment
presents it: whether `ctx.Done()` is closed, whether a tick is waiting on
`ticker.C`, which of the two cases the Go runtime picks when both can proceed
(it chooses one of the ready cases at random), and what the node answers to the
receipt request if the request is sent. -/
structure SelectRound where
  done : Bool
  tick : Bool
  pickTick : Bool
  fetch : FetchResult
  deriving DecidableEq, Repr

/-- The outcome of `WaitForTransaction`; `waiting` means the call has not
returned after the rounds given. -/
inductive WaitResult where
  | invalidHash    -- "invalid tx hash: %w"
  | cancelled      -- ctx.Err()
  | success        -- nil
  | waiting
  deriving DecidableEq, Repr

/-- `c.provider.TransactionReceipt(ctx, txHashFelt)`: the call carries the
context of the wait. The RPC client honours it: under a context that is already
cancelled the call returns the context error and no request is sent; otherwise
the request is sent and the outcome is the answer of the node. -/
def TransactionReceipt (ctxDone : Bool) (answer : FetchResult) : FetchResult :=
  if ctxDone then .failed else answer

/-- The requests sent to the node after a call of `TransactionReceipt`: the
request for `txHashFelt` is added unless the context was already cancelled. -/
def requestsAfter (ctxDone : Bool) (txHashFelt : Felt) (fetched : List Felt) : List Felt :=
  if ctxDone then fetched else txHashFelt :: fetched

/-- The `for { select { ... } }` loop of `WaitForTransaction`; `fetched` is the
list of hashes for which a receipt request was sent to the node so far, latest
first. -/
def pollLoop (txHashFelt : Felt) : List SelectRound → List Felt → WaitResult × List Felt
  | [], fetched => (.waiting, fetched)
  | r :: rest, fetched =>
    if r.done && !(r.tick && r.pickTick) then (.cancelled, fetched)
    else if r.tick then
      match TransactionReceipt r.done r.fetch with
      | .failed => pollLoop txHashFelt rest (requestsAfter r.done txHashFelt fetched)
      | .receipt none => pollLoop txHashFelt rest (requestsAfter r.done txHashFelt fetched)
      | .receipt (some _) => (.success, requestsAfter r.done txHashFelt fetched)
    else pollLoop txHashFelt rest fetched

/-- `Client.WaitForTransaction`, run against the given rounds: the result and
the receipt requests sent to the node. -/
def WaitForTransaction (c : Client) (txHash : GoString) (rounds : List SelectRound) :
    WaitResult × List Felt :=
  match c.HexToFelt txHash with
  | none => (.invalidHash, [])
  | some txHashFelt => pollLoop txHashFelt rounds []

/-- Does the outcome of a receipt fetch carry a non-empty receipt (no error and
a receipt pointer that is not nil)? -/
def FetchResult.hasReceipt : FetchResult → Bool
  | .receipt (some _) => true
  | _ => false

/-- The outcomes of the receipt fetches at the successive ticks of a run: the
`fetch` field of every round in which a tick is waiting. -/
def tickOutcomes (rounds : List SelectRound) : List FetchResult :=
  (rounds.filter (fun r => r.tick)).map (fun r => r.fetch)

/-- The confirmation polling in the words of the specification, for a wait that
is never cancelled: a receipt is fetched at every tick; a failed fetch (or an
empty receipt) is followed by the fetch of the next tick; the first non-empty
receipt ends the wait with success. The result comes with the receipt requests
issued, latest first. -/
def WaitForTransaction_spec (txHashFelt : Felt) (outcomes : List FetchResult) :
    WaitResult × List Felt :=
  let retried := outcomes.takeWhile (fun f => !f.hasReceipt)
  if retried.length < outcomes.length then
    (.success, List.replicate (retried.length + 1) txHashFelt)
  else (.waiting, List.replicate outcomes.length txHashFelt)

/-- A felt from a number below the field prime. -/
def Felt.ofNat (n : Nat) : Felt := Felt.SetBigInt (n : Int)

/-- A client for the concrete runs: the model parser, a selector function that
returns the selector of `balanceOf`, the token table of Sepolia with ETH and
STRK, an account that accepts every transaction and a provider that answers
every call with the words `7, 1, 9`. -/
def demoClient : Client :=
  { HexToFelt := HexToFelt
    GetSelectorFromNameFelt := fun _ => Felt.ofNat 0x2e4263afad30923c891518314c3c95dbe830a16874e8abc5777a9a20b54c76e
    tokenAddrs := fun t =>
      if t = ascii "ETH" then
        some (Felt.ofNat 0x049d36570d4e46f48e99674bd3fcc84644ddd6b96f7c741b1562b82f9e004dc7)
      else if t = ascii "STRK" then
        some (Felt.ofNat 0x04718f5a0fc34cc1af16a1cdee98ffb20c31f5cd61d6ab07201858f4287c938d)
      else none
    BuildAndSendInvokeTxn := fun _ => some (ascii "0xabc")
    Call := fun _ _ => some [Felt.ofNat 7, Felt.ofNat 1, Felt.ofNat 9] }

/-- The client of the concrete runs with a provider that answers every call
with the given words. -/
def replyClient (words : List Felt) : Client :=
  { demoClient with Call := fun _ _ => some words }

/-! ## Token validation (`validator.go`, `client.go`) -/

/-- Go `utf8.AppendRune`: the UTF-8 encoding of a rune; a surrogate or a value
above `0x10FFFF` is encoded as `RuneError`. -/
def EncodeRune (r : Nat) : GoString :=
  if r ≤ 0x7F then [r]
  else if r ≤ 0x7FF then [0xC0 + r / 0x40, 0x80 + r % 0x40]
  else if r > 0x10FFFF ∨ (0xD800 ≤ r ∧ r ≤ 0xDFFF) then [0xEF, 0xBF, 0xBD]
  else if r ≤ 0xFFFF then [0xE0 + r / 0x1000, 0x80 + r / 0x40 % 0x40, 0x80 + r % 0x40]
  else [0xF0 + r / 0x40000, 0x80 + r / 0x1000 % 0x40, 0x80 + r / 0x40 % 0x40, 0x80 + r % 0x40]

/-- The loop of Go `strings.Map(mapping, s)` for a mapping that drops no rune:
every rune of `s` (an invalid byte being `RuneError`) is replaced by the
encoding of its image. `skip` counts the bytes still belonging to the rune
handled last. -/
def mapFrom (mapping : Nat → Nat) : GoString → Nat → GoString
  | [], _ => []
  | _ :: rest, skip + 1 => mapFrom mapping rest skip
  | c :: rest, 0 =>
    EncodeRune (mapping (DecodeRuneInString (c :: rest)).1)
      ++ mapFrom mapping rest ((DecodeRuneInString (c :: rest)).2 - 1)

/-- Go `strings.Map(mapping, s)`. -/
def Map (mapping : Nat → Nat) (s : GoString) : GoString := mapFrom mapping s 0

/-- Go `strings.ToUpper(s)`, with `unicode.ToUpper` as the parameter `up`: a
string of ASCII bytes has its letters `a-z` shifted to `A-Z`; any other string
is mapped rune by rune with `up`. -/
def ToUpper (up : Nat → Nat) (s : GoString) : GoString :=
  if s.all (fun c => decide (c < 0x80)) then
    s.map (fun c => if 0x61 ≤ c ∧ c ≤ 0x7A then c - 0x20 else c)
  else Map up s

/-- What the development uses of the table behind `unicode.ToUpper`: on ASCII
it shifts `a-z` to `A-Z` and leaves the rest; the long s (U+017F) has upper case
`S` and the dotless i (U+0131) has upper case `I`; the upper case of every other
rune outside ASCII is outside ASCII. -/
structure UpperCaseMapping (up : Nat → Nat) : Prop where
  onASCII : ∀ r, r < 0x80 → up r = if 0x61 ≤ r ∧ r ≤ 0x7A then r - 0x20 else r
  longS : up 0x17F = 0x53
  dotlessI : up 0x131 = 0x49
  others : ∀ r, 0x80 ≤ r → r ≠ 0x17F → r ≠ 0x131 → 0x80 ≤ up r

/-- An upper-case mapping for the concrete runs: `unicode.ToUpper` on ASCII, on
the long s and on the dotless i; it leaves every other rune as it is. -/
def upperCore (r : Nat) : Nat :=
  if r < 0x80 then (if 0x61 ≤ r ∧ r ≤ 0x7A then r - 0x20 else r)
  else if r = 0x17F then 0x53
  else if r = 0x131 then 0x49
  else r

/-- The error of `ValidateToken`: "invalid token: must be ETH or STRK". -/
inductive TokenError where
  | invalidToken
  deriving DecidableEq, Repr

/-- `ValidateToken` of `validator.go`. -/
def ValidateToken (up : Nat → Nat) (token : GoString) : Option TokenError :=
  let token := ToUpper up token
  if token ≠ ascii "ETH" ∧ token ≠ ascii "STRK" then some .invalidToken
  else none

/-- `Client.GetSupportedTokens`. -/
def GetSupportedTokens : List GoString := [ascii "ETH", ascii "STRK"]

/-- `Client.ValidateToken`, a wrapper. -/
def Client.ValidateToken (_c : Client) (up : Nat → Nat) (token : GoString) : Option TokenError :=
  Faucet.ValidateToken up token

/-- The written forms of a capital ASCII letter when letter case is ignored:
the capital, the small letter and, for `S` and `I`, the small letters long s
(U+017F, bytes `C5 BF`) and dotless i (U+0131, bytes `C4 B1`). -/
def letterForms (u : Nat) : List GoString :=
  if u = 0x53 then [[u], [u + 0x20], [0xC5, 0xBF]]
  else if u = 0x49 then [[u], [u + 0x20], [0xC4, 0xB1]]
  else [[u], [u + 0x20]]

/-- Is `t` the word `target` (capital ASCII letters) with each letter in any of
its written forms, that is `target` when letter case is ignored? -/
def equalIgnoringCase : GoString → GoString → Bool
  | [], t => t.isEmpty
  | u :: us, t =>
    (letterForms u).any
      (fun f => (t.take f.length == f) && equalIgnoringCase us (t.drop f.length))

/-! ## The unit converter (`chains/chain.go`)

`AmountToWei` and `WeiToAmount` compute with `math/big` floats. A finite float
is a sign, a natural mantissa and a binary exponent, with value
`(-1)^neg * mant * 2^exp`; a `big.Float` carries its precision in bits besides.
Every operation rounds to nearest, ties to even, the mode of a fresh
`big.Float`. -/

/-- A `float64`: a finite value `(-1)^neg * mant * 2^exp`, an infinity or a NaN. -/
inductive Float64 where
  | finite (neg : Bool) (mant : Nat) (exp : Int)
  | inf (neg : Bool)
  | nan
  deriving DecidableEq, Repr

/-- A `big.Float`: its precision and a finite value or an infinity. -/
inductive BigFloat where
  | finite (prec : Nat) (neg : Bool) (mant : Nat) (exp : Int)
  | inf (prec : Nat) (neg : Bool)
  deriving DecidableEq, Repr

/-- Counting the bits of `n` by halving; `fuel` bounds the number of halvings. -/
def bitLenFuel : Nat → Nat → Nat
  | 0, _ => 0
  | fuel + 1, n => if n = 0 then 0 else bitLenFuel fuel (n / 2) + 1

/-- The number of bits of a natural number (`BitLen`); `n` halvings are enough
(`bitLen_spec`). -/
def bitLen (n : Nat) : Nat := bitLenFuel n n

/-- Rounding of `(mant + f) * 2^exp`, where `0 ≤ f < 1` and `sticky` tells
whether `f ≠ 0`, to at most `prec` bits (`prec > 0`), to nearest, ties to even. -/
def roundToPrec (prec mant : Nat) (sticky : Bool) (exp : Int) : Nat × Int :=
  if bitLen mant ≤ prec then (mant, exp)
  else
    let shift := bitLen mant - prec
    let q := mant / 2 ^ shift
    let r := mant % 2 ^ shift
    let half := 2 ^ (shift - 1)
    let up : Bool :=
      decide (r > half) || (decide (r = half) && (sticky || decide (q % 2 = 1)))
    (if up then q + 1 else q, exp + shift)

/-- The precision of a `big.Float`. -/
def BigFloat.precision : BigFloat → Nat
  | .finite prec _ _ _ => prec
  | .inf prec _ => prec

/-- `new(big.Float).SetInt(x)`: the precision becomes the larger of
`x.BitLen()` and 64, so the value is exact. -/
def BigFloat.SetInt (x : Int) : BigFloat :=
  .finite (if bitLen x.natAbs ≤ 64 then 64 else bitLen x.natAbs) (decide (x < 0)) x.natAbs 0

/-- `big.NewFloat(x)`: precision 53, value exact; `none` when `x` is a NaN (the
Go function panics). -/
def BigFloat.NewFloat (x : Float64) : Option BigFloat :=
  match x with
  | .finite neg mant exp => some (.finite 53 neg mant exp)
  | .inf neg => some (.inf 53 neg)
  | .nan => none

/-- `new(big.Float).Mul(x, y)`: the product rounded to the larger of the two
precisions; `none` when one operand is zero and the other an infinity (the Go
method panics). -/
def BigFloat.Mul (x y : BigFloat) : Option BigFloat :=
  let prec := if x.precision ≤ y.precision then y.precision else x.precision
  match x, y with
  | .finite _ nx mx ex, .finite _ ny my ey =>
    let r := roundToPrec prec (mx * my) false (ex + ey)
    some (.finite prec (xor nx ny) r.1 r.2)
  | .finite _ nx mx _, .inf _ ny => if mx = 0 then none else some (.inf prec (xor nx ny))
  | .inf _ nx, .finite _ ny my _ => if my = 0 then none else some (.inf prec (xor nx ny))
  | .inf _ nx, .inf _ ny => some (.inf prec (xor nx ny))

/-- `new(big.Float).Quo(x, y)`: the quotient rounded to the larger of the two
precisions; `none` when both operands are zero or both are infinities (the Go
method panics). The quotient of the mantissas is taken with `prec + 2` bits and
more, and the remainder gives the sticky bit. -/
def BigFloat.Quo (x y : BigFloat) : Option BigFloat :=
  let prec := if x.precision ≤ y.precision then y.precision else x.precision
  match x, y with
  | .finite _ nx mx ex, .finite _ ny my ey =>
    if my = 0 then (if mx = 0 then none else some (.inf prec (xor nx ny)))
    else
      let k := prec + 2 + bitLen my
      let q := (mx * 2 ^ k) / my
      let rem := (mx * 2 ^ k) % my
      let r := roundToPrec prec q (decide (rem ≠ 0)) (ex - ey - (k : Int))
      some (.finite prec (xor nx ny) r.1 r.2)
  | .finite _ nx _ _, .inf _ ny => some (.finite prec (xor nx ny) 0 0)
  | .inf _ nx, .finite _ ny _ _ => some (.inf prec (xor nx ny))
  | .inf _ _, .inf _ _ => none

/-- `x.Int(nil)`: the value truncated towards zero; `none` (a nil pointer) when
`x` is an infinity. -/
def BigFloat.Int (x : BigFloat) : Option ℤ :=
  match x with
  | .finite _ neg mant exp =>
    let mag : Nat := if 0 ≤ exp then mant * 2 ^ exp.toNat else mant / 2 ^ (-exp).toNat
    some (if neg then -(mag : ℤ) else (mag : ℤ))
  | .inf _ _ => none

/-- `x.Float64()`: the nearest `float64`. Below the normal range the precision
shrinks (denormals), a value too small becomes zero and a value too large an
infinity. -/
def BigFloat.Float64 (x : BigFloat) : Float64 :=
  match x with
  | .inf _ neg => .inf neg
  | .finite _ neg mant exp =>
    if mant = 0 then .finite neg 0 0
    else
      -- exponent for a mantissa `1.0 <= m < 2.0`
      let e : ℤ := (bitLen mant : ℤ) + exp - 1
      -- precision of the float64 mantissa
      let p : ℤ := if e < -1022 then 53 + 1022 + e else 53
      if p < 0 ∨ (p = 0 ∧ mant = 2 ^ (bitLen mant - 1)) then .finite neg 0 0
      else if p = 0 then .finite neg 1 (-1074)
      else
        let r := roundToPrec p.toNat mant false exp
        if (bitLen r.1 : ℤ) + r.2 - 1 > 1023 then .inf neg
        else .finite neg r.1 r.2

/-- The result of `AmountToWei`: an integer, a nil pointer (the product is an
infinity) or a panic (the amount is a NaN). -/
inductive WeiResult where
  | value (v : Int)
  | nilResult
  | panics
  deriving DecidableEq, Repr

/-- `AmountToWei` of `chains/chain.go`. -/
def AmountToWei (amount : Float64) : WeiResult :=
  let weiPerToken := BigFloat.SetInt ((10 : Int) ^ 18)
  match BigFloat.NewFloat amount with
  | none => .panics
  | some a =>
    match BigFloat.Mul a weiPerToken with
    | none => .panics
    | some amountFloat =>
      match amountFloat.Int with
      | none => .nilResult
      | some amountInt => .value amountInt

/-- `WeiToAmount` of `chains/chain.go`; `none` never occurs, the divisor being
`10^18` (the quotient of two finite values with a divisor other than zero). -/
def WeiToAmount (wei : Int) : Option Float64 :=
  let weiPerToken := BigFloat.SetInt ((10 : Int) ^ 18)
  let weiFloat := BigFloat.SetInt wei
  match BigFloat.Quo weiFloat weiPerToken with
  | none => none
  | some amount => some amount.Float64

/-- Numeric equality of two finite `float64` values (`==`). -/
def Float64.sameValue (a b : Float64) : Bool :=
  match a, b with
  | .finite na ma ea, .finite nb mb eb =>
    let e := if ea ≤ eb then ea else eb
    (ma * 2 ^ (ea - e).toNat == mb * 2 ^ (eb - e).toNat) && (ma == 0 || na == nb)
  | .inf na, .inf nb => na == nb
  | _, _ => false

/-! # Properties -/

/-! ## The uint256 words -/

/-- The mask keeps the value modulo `2^128`. -/
theorem uint256Low_eq_mod (v : Int) (h0 : 0 ≤ v) : uint256Low v = v % 2 ^ 128 := by
  obtain ⟨n, rfl⟩ := Int.eq_ofNat_of_zero_le h0
  have hm : ((1 : Int) <<< (128 : Int)) - 1 = ((2 ^ 128 - 1 : Nat) : Int) := by
    rw [show (128 : Int) = ((128 : Nat) : Int) from rfl, Int.one_shiftLeft]
    norm_num
  unfold uint256Low
  rw [hm]
  show ((n &&& (2 ^ 128 - 1) : Nat) : Int) = _
  rw [Nat.and_pow_two_sub_one_eq_mod]
  norm_cast

/-- The shift is the division by `2^128`. -/
theorem uint256High_eq_div (v : Int) : uint256High v = v / 2 ^ 128 := by
  unfold uint256High
  have := Int.shiftRight_eq_div_pow v 128
  simpa using this

theorem uint256FromWords_eq (low high : Int) :
    uint256FromWords low high = low + high * 2 ^ 128 := by
  unfold uint256FromWords
  rw [show (128 : Int) = ((128 : Nat) : Int) from rfl, Int.shiftLeft_eq_mul_pow]
  norm_cast

theorem Felt.BigInt_SetBigInt (v : Int) (h0 : 0 ≤ v) (h1 : v < 2 ^ 128) :
    (Felt.SetBigInt v).BigInt = v := by
  unfold Felt.BigInt Felt.SetBigInt
  have hp : v < (FELT_P : Int) := by
    have : (2 : Int) ^ 128 < (FELT_P : Int) := by decide
    omega
  simp only
  rw [Int.emod_eq_of_lt h0 hp]
  exact Int.toNat_of_nonneg h0

/-- For `0 ≤ v < 2^256` the mask and the shift give two words in `[0, 2^128)`
that sum back to `v`, also after they have gone through field elements. -/
theorem uint256_words (v : Int) (h0 : 0 ≤ v) (h1 : v < 2 ^ 256) :
    0 ≤ uint256Low v ∧ uint256Low v < 2 ^ 128 ∧
    0 ≤ uint256High v ∧ uint256High v < 2 ^ 128 ∧
    uint256FromWords (uint256Low v) (uint256High v) = v ∧
    (Felt.SetBigInt (uint256Low v)).BigInt = uint256Low v ∧
    (Felt.SetBigInt (uint256High v)).BigInt = uint256High v := by
  have hl := uint256Low_eq_mod v h0
  have hh := uint256High_eq_div v
  have hp : (0 : Int) < 2 ^ 128 := by norm_num
  have l0 : 0 ≤ uint256Low v := by rw [hl]; exact Int.emod_nonneg v (ne_of_gt hp)
  have l1 : uint256Low v < 2 ^ 128 := by rw [hl]; exact Int.emod_lt_of_pos v hp
  have g0 : 0 ≤ uint256High v := by rw [hh]; exact Int.ediv_nonneg h0 (le_of_lt hp)
  have g1 : uint256High v < 2 ^ 128 := by
    rw [hh]
    apply Int.ediv_lt_of_lt_mul hp
    calc v < 2 ^ 256 := h1
      _ = 2 ^ 128 * 2 ^ 128 := by norm_num
  have hr : uint256FromWords (uint256Low v) (uint256High v) = v := by
    rw [uint256FromWords_eq, hl, hh]
    have := Int.emod_add_ediv v (2 ^ 128)
    linarith
  exact ⟨l0, l1, g0, g1, hr, Felt.BigInt_SetBigInt _ l0 l1, Felt.BigInt_SetBigInt _ g0 g1⟩

/-- Claim C1. For every integer `v` with `0 ≤ v < 2^256`: the low and high words
of `v` (mask and shift) lie in `[0, 2^128)` and sum back to `v`; `TransferTokens`
puts exactly these two words after the recipient in the calldata of its
`transfer` call, as field elements whose values are `v mod 2^128` and
`v div 2^128`; and `GetBalance`, given a reply that starts with these two words,
returns `v`. -/
theorem uint256_split_roundtrip (v : Int) (h0 : 0 ≤ v) (h1 : v < 2 ^ 256) :
    0 ≤ uint256Low v ∧ uint256Low v < 2 ^ 128 ∧
    0 ≤ uint256High v ∧ uint256High v < 2 ^ 128 ∧
    uint256FromWords (uint256Low v) (uint256High v) = v ∧
    uint256FromWords (Felt.SetBigInt (uint256Low v)).BigInt
      (Felt.SetBigInt (uint256High v)).BigInt = v ∧
    (∀ (c : Client) (recipient token : GoString) (recipientFelt tokenAddress : Felt),
      c.HexToFelt recipient = some recipientFelt →
      c.tokenAddrs token = some tokenAddress →
      ∃ lowFelt highFelt : Felt,
        (TransferTokens c recipient token v).2 =
          [[{ ContractAddress := tokenAddress
              FunctionName := ascii "transfer"
              CallData := [recipientFelt, lowFelt, highFelt] }]] ∧
        lowFelt.BigInt = v % 2 ^ 128 ∧ highFelt.BigInt = v / 2 ^ 128 ∧
        0 ≤ lowFelt.BigInt ∧ lowFelt.BigInt < 2 ^ 128 ∧
        0 ≤ highFelt.BigInt ∧ highFelt.BigInt < 2 ^ 128 ∧
        lowFelt.BigInt + highFelt.BigInt * 2 ^ 128 = v ∧
        ∀ (c2 : Client) (address token2 : GoString) (addrFelt tokenAddress2 : Felt)
          (more : List Felt),
          c2.HexToFelt address = some addrFelt →
          c2.tokenAddrs token2 = some tokenAddress2 →
          c2.Call
            { ContractAddress := tokenAddress2
              EntryPointSelector := c2.GetSelectorFromNameFelt (ascii "balanceOf")
              Calldata := [addrFelt] } (ascii "latest") = some (lowFelt :: highFelt :: more) →
          GetBalance c2 address token2 = .balance v) := by
  obtain ⟨l0, l1, g0, g1, hr, fl, fh⟩ := uint256_words v h0 h1
  refine ⟨l0, l1, g0, g1, hr, by rw [fl, fh]; exact hr, ?_⟩
  intro c recipient token recipientFelt tokenAddress hrec htok
  refine ⟨Felt.SetBigInt (uint256Low v), Felt.SetBigInt (uint256High v), ?_, ?_, ?_, ?_, ?_,
    ?_, ?_, ?_, ?_⟩
  · unfold TransferTokens
    simp only [hrec, htok]
    split <;> rfl
  · rw [fl, uint256Low_eq_mod v h0]
  · rw [fh, uint256High_eq_div]
  · rw [fl]; exact l0
  · rw [fl]; exact l1
  · rw [fh]; exact g0
  · rw [fh]; exact g1
  · rw [fl, fh, ← uint256FromWords_eq]; exact hr
  · intro c2 address token2 addrFelt tokenAddress2 more haddr htok2 hcall
    unfold GetBalance
    simp only [haddr, htok2, hcall]
    rw [dif_neg (by simp)]
    simp only [List.get, fl, fh, hr]

/-- The amount `2^128 + 5` goes on the wire as the words `5` and `1`, and a
balance reply with the words `5` and `1` is read as `2^128 + 5`. -/
theorem uint256_split_roundtrip_witness :
    (TransferTokens demoClient (ascii "0x1") (ascii "ETH") (2 ^ 128 + 5)).2 =
      [[{ ContractAddress :=
            Felt.ofNat 0x049d36570d4e46f48e99674bd3fcc84644ddd6b96f7c741b1562b82f9e004dc7
          FunctionName := ascii "transfer"
          CallData := [Felt.ofNat 1, Felt.ofNat 5, Felt.ofNat 1] }]] ∧
    GetBalance (replyClient [Felt.ofNat 5, Felt.ofNat 1]) (ascii "0x1") (ascii "ETH")
      = .balance (2 ^ 128 + 5) ∧
    ∃ lowFelt highFelt : Felt,
      (TransferTokens demoClient (ascii "0x1") (ascii "ETH") (2 ^ 128 + 5)).2 =
        [[{ ContractAddress :=
              Felt.ofNat 0x049d36570d4e46f48e99674bd3fcc84644ddd6b96f7c741b1562b82f9e004dc7
            FunctionName := ascii "transfer"
            CallData := [Felt.ofNat 1, lowFelt, highFelt] }]] ∧
      lowFelt.BigInt = 5 ∧ highFelt.BigInt = 1 :=
  ⟨by decide, by decide,
    let ⟨lo, hi, hcall, hlo, hhi, _⟩ :=
      (uint256_split_roundtrip (2 ^ 128 + 5) (by decide) (by decide)).2.2.2.2.2.2
        demoClient (ascii "0x1") (ascii "ETH") (Felt.ofNat 1)
        (Felt.ofNat 0x049d36570d4e46f48e99674bd3fcc84644ddd6b96f7c741b1562b82f9e004dc7)
        (by decide) (by decide)
    ⟨lo, hi, hcall, hlo.trans (by decide), hhi.trans (by decide)⟩⟩

/-! ## The address format -/

theorem ascii_0x : ascii "0x" = [0x30, 0x78] := by decide

theorem hexClass_step (st : Bool) (c : Nat) (rest : GoString) (k : Bool → GoString → Bool) :
    hexClass.matchHere st (c :: rest) k = (isHexChar c && k false rest) := by
  simp [hexClass, Regexp.matchHere, isHexChar, Bool.or_assoc]

theorem hexClass_nil (st : Bool) (k : Bool → GoString → Bool) :
    hexClass.matchHere st [] k = false := by
  simp [hexClass, Regexp.matchHere]

/-- A bounded repetition of a one-character expression, followed by the end of the
text, matches exactly the strings of `m` to `n` such characters. -/
theorem rep_match_end (r : Regexp) (p : Nat → Bool)
    (hcons : ∀ st c rest k, r.matchHere st (c :: rest) k = (p c && k false rest))
    (hnil : ∀ st k, r.matchHere st [] k = false) (n : Nat) :
    ∀ (m : Nat) (st : Bool) (s : GoString),
      (r.rep m n).matchHere st s (fun _ t => t.isEmpty)
        = (decide (m ≤ s.length) && decide (s.length ≤ n) && s.all p) := by
  induction n with
  | zero =>
    intro m st s
    cases m with
    | zero =>
      cases s <;> simp [Regexp.rep, Regexp.matchHere]
    | succ m =>
      cases s <;> simp [Regexp.rep, Regexp.matchHere]
  | succ n ih =>
    intro m st s
    cases m with
    | zero =>
      cases s with
      | nil => simp [Regexp.rep, Regexp.matchHere, hnil]
      | cons c rest =>
        simp only [Regexp.rep, Regexp.matchHere, hcons, ih]
        rw [Bool.eq_iff_iff]
        simp only [Bool.and_eq_true, Bool.or_eq_true, decide_eq_true_eq, List.all_cons,
          List.length_cons, List.isEmpty_cons, Nat.zero_le, Nat.add_le_add_iff_right]
        tauto
    | succ m =>
      cases s with
      | nil => simp [Regexp.rep, Regexp.matchHere, hnil]
      | cons c rest =>
        simp only [Regexp.rep, Regexp.matchHere, hcons, ih]
        rw [Bool.eq_iff_iff]
        simp only [Bool.and_eq_true, Bool.or_eq_true, decide_eq_true_eq, List.all_cons,
          List.length_cons, List.isEmpty_cons, Nat.zero_le, Nat.add_le_add_iff_right]
        tauto

theorem anchored_0x_matchHere (body : Regexp) (s : GoString) :
    (Regexp.concat .beginText (.concat (.lit 0x30) (.concat (.lit 0x78)
        (.concat body .endText)))).matchHere true s (fun _ _ => true)
      = ((s.take 2 == [0x30, 0x78]) && body.matchHere false (s.drop 2) (fun _ t => t.isEmpty)) := by
  simp only [Regexp.matchHere, Bool.true_and, Bool.and_true]
  match s with
  | [] => simp
  | [a] => simp
  | a :: b :: rest => simp [Bool.and_assoc]

theorem addressRegex_matchHere_start (s : GoString) :
    addressRegex.matchHere true s (fun _ _ => true)
      = ((s.take 2 == ascii "0x") && decide (1 ≤ (s.drop 2).length)
          && decide ((s.drop 2).length ≤ 64) && (s.drop 2).all isHexChar) := by
  rw [ascii_0x]
  unfold addressRegex
  rw [anchored_0x_matchHere, rep_match_end hexClass isHexChar hexClass_step hexClass_nil 64 1]
  simp only [Bool.and_assoc]

theorem addressRegex_matchHere_later (s : GoString) :
    addressRegex.matchHere false s (fun _ _ => true) = false := by
  simp [addressRegex, Regexp.matchHere]

theorem addressRegex_searchFrom_later (s : GoString) :
    addressRegex.searchFrom false s = false := by
  induction s with
  | nil => simp [Regexp.searchFrom, addressRegex_matchHere_later]
  | cons c rest ih => simp [Regexp.searchFrom, addressRegex_matchHere_later, ih]

/-- What `addressRegex` matches. -/
theorem addressRegex_MatchString (s : GoString) :
    addressRegex.MatchString s
      = ((s.take 2 == ascii "0x") && decide (1 ≤ (s.drop 2).length)
          && decide ((s.drop 2).length ≤ 64) && (s.drop 2).all isHexChar) := by
  unfold Regexp.MatchString
  cases s with
  | nil => rw [Regexp.searchFrom, addressRegex_matchHere_start]
  | cons c rest =>
    rw [Regexp.searchFrom, addressRegex_searchFrom_later, Bool.or_false,
      addressRegex_matchHere_start]

theorem HasPrefix_0x (s : GoString) : HasPrefix s (ascii "0x") = (s.take 2 == ascii "0x") := by
  rw [ascii_0x]
  unfold HasPrefix
  match s with
  | [] => simp
  | [a] => simp
  | a :: b :: rest => simp

/-- The validator agrees with the format of the specification on every string. -/
theorem ValidateAddress_eq_spec (s : GoString) : ValidateAddress s = ValidateAddress_spec s := by
  unfold ValidateAddress ValidateAddress_spec
  rw [HasPrefix_0x, addressRegex_MatchString]
  by_cases h1 : s = []
  · simp [h1]
  · by_cases h2 : s.take 2 = ascii "0x"
    · by_cases h3 : 1 ≤ (s.drop 2).length
      · by_cases h4 : (s.drop 2).length ≤ 64
        · by_cases h5 : (s.drop 2).all isHexChar = true
          · simp only [h1, h2, h3, h4, h5]
            simp
          · simp only [h1, h2, h3, h4, h5]
            simp
        · simp only [h1, h2, h3, h4]
          simp
      · simp only [h1, h2, h3]
        simp
    · simp [h1, h2]

/-- An address is accepted exactly when it is `0x` followed by 1 to 64 hexadecimal
characters. -/
theorem ValidateAddress_eq_none_iff (s : GoString) :
    ValidateAddress s = none ↔
      ∃ digits, s = ascii "0x" ++ digits ∧ 1 ≤ digits.length ∧ digits.length ≤ 64 ∧
        ∀ c ∈ digits, isHexChar c = true := by
  rw [ValidateAddress_eq_spec]
  unfold ValidateAddress_spec
  constructor
  · intro h
    split_ifs at h with h1 h2 h3
    refine ⟨s.drop 2, ?_, h3.1, h3.2.1, ?_⟩
    · have h2 : s.take 2 = ascii "0x" := not_not.mp h2
      rw [← h2, List.take_append_drop]
    · simpa using h3.2.2
  · rintro ⟨digits, rfl, hl, hu, hall⟩
    have e1 : ascii "0x" ++ digits ≠ [] := by simp [ascii_0x]
    have e2 : (ascii "0x" ++ digits).take 2 = ascii "0x" := by simp [ascii_0x]
    have e3 : (ascii "0x" ++ digits).drop 2 = digits := by simp [ascii_0x]
    simp only [e1, e2, e3, if_false, ne_eq, not_true_eq_false]
    rw [if_pos]
    exact ⟨hl, hu, by simpa using hall⟩

/-- Claim C2. `ValidateAddress` decides the address format as the specification
words it: on every string it returns what `ValidateAddress_spec` returns (the
empty-address error for the empty string, the missing-0x error for a string not
starting with `0x`, the format error when the rest is not 1 to 64 hexadecimal
characters, no error otherwise); `""` and `"0xzz"` are rejected and `0x` followed
by 64 `a` is accepted. -/
theorem ValidateAddress_decides_format :
    (∀ s, ValidateAddress s = ValidateAddress_spec s) ∧
    ValidateAddress (ascii "") = some .emptyAddress ∧
    ValidateAddress (ascii "0xzz") = some .invalidFormat ∧
    ValidateAddress (ascii "0x" ++ List.replicate 64 0x61) = none :=
  ⟨ValidateAddress_eq_spec, by decide, by decide, by decide⟩

theorem isHexChar_lt (c : Nat) (h : isHexChar c = true) : c < 0x80 ∧ c ≠ 0x20 := by
  simp only [isHexChar, Bool.or_eq_true, Bool.and_eq_true, decide_eq_true_eq] at h
  omega

theorem runeCountFrom_le (s : GoString) : ∀ skip, runeCountFrom s skip ≤ s.length := by
  induction s with
  | nil => intro skip; simp [runeCountFrom]
  | cons c rest ih =>
    intro skip
    cases skip with
    | zero =>
      have := ih ((DecodeRuneInString (c :: rest)).2 - 1)
      simp only [runeCountFrom, List.length_cons]
      omega
    | succ k =>
      have := ih k
      simp only [runeCountFrom, List.length_cons]
      omega

/-- A string has at most as many runes as bytes. -/
theorem RuneCountInString_le (s : GoString) : RuneCountInString s ≤ s.length :=
  runeCountFrom_le s 0

/-- A string of ASCII bytes has as many runes as bytes. -/
theorem RuneCountInString_ascii (s : GoString) (h : ∀ c ∈ s, c < 0x80) :
    RuneCountInString s = s.length := by
  unfold RuneCountInString
  induction s with
  | nil => simp [runeCountFrom]
  | cons c rest ih =>
    have hc : c < 0x80 := h c (by simp)
    have hr : ∀ c ∈ rest, c < 0x80 := fun x hx => h x (by simp [hx])
    simp only [runeCountFrom, DecodeRuneInString, hc, if_true, List.length_cons]
    rw [show (1 : Nat) - 1 = 0 from rfl, ih hr]
    omega

theorem ReplaceAllByte_id (s : GoString) (old new : Nat) (h : ∀ c ∈ s, c ≠ old) :
    ReplaceAllByte s old new = s := by
  unfold ReplaceAllByte
  induction s with
  | nil => rfl
  | cons c rest ih =>
    have hc : c ≠ old := h c (by simp)
    have hr : ∀ c ∈ rest, c ≠ old := fun x hx => h x (by simp [hx])
    simp [hc, ih hr]

/-- After the replacement of spaces by zeros the pad byte chosen by `fmt` does not
matter: the padding is made of zeros either way. -/
theorem ReplaceAllByte_fmtPadString (zero : Bool) (s : GoString) :
    ReplaceAllByte (fmtPadString zero 64 s) 0x20 0x30
      = List.replicate (64 - RuneCountInString s) 0x30 ++ ReplaceAllByte s 0x20 0x30 := by
  unfold ReplaceAllByte fmtPadString
  cases zero <;> simp

/-- Every value returned by `NormalizeAddress` has at least 66 bytes. -/
theorem NormalizeAddress_length (a r : GoString) (h : NormalizeAddress a = some r) :
    66 ≤ r.length := by
  unfold NormalizeAddress at h
  split_ifs at h with h1 h2
  · simp only [Option.some.injEq] at h; subst h; exact h1
  · simp only [Option.some.injEq] at h
    subst h
    have hrc := RuneCountInString_le (a.drop 2)
    simp only [ascii_0x, Sprintf064s, fmtPadString, ReplaceAllByte, List.length_append,
      List.length_map, List.length_replicate, List.length_cons, List.length_nil] at *
    omega

/-- The slice `address[2:]` is in range exactly for strings of two bytes or more. -/
theorem NormalizeAddress_isSome_iff (a : GoString) :
    (NormalizeAddress a).isSome = true ↔ 2 ≤ a.length := by
  unfold NormalizeAddress
  split_ifs with h1 h2
  · simp; omega
  · simp; omega
  · simp; omega

/-- Claim C4. On every string of at least two bytes `NormalizeAddress` returns a
value, and normalising that value again returns it unchanged; so does the
wrapper `NormalizeStarknetAddress`. -/
theorem NormalizeAddress_idempotent (a : GoString) (h : 2 ≤ a.length) :
    ∃ r, NormalizeAddress a = some r ∧ NormalizeAddress r = some r ∧
      NormalizeStarknetAddress a = some r ∧ NormalizeStarknetAddress r = some r := by
  have hs := (NormalizeAddress_isSome_iff a).mpr h
  obtain ⟨r, hr⟩ := Option.isSome_iff_exists.mp hs
  have hlen := NormalizeAddress_length a r hr
  have hrr : NormalizeAddress r = some r := by
    unfold NormalizeAddress
    rw [if_pos hlen]
  exact ⟨r, hr, hrr, hr, hrr⟩

theorem NormalizeAddress_of_digits (digits : GoString) (hl : 1 ≤ digits.length)
    (hu : digits.length ≤ 64) (hall : ∀ c ∈ digits, isHexChar c = true) :
    NormalizeAddress (ascii "0x" ++ digits)
      = some (ascii "0x" ++ List.replicate (64 - digits.length) 0x30 ++ digits) := by
  unfold NormalizeAddress
  by_cases h64 : digits.length = 64
  · rw [if_pos (by simp [ascii_0x]; omega)]
    simp [h64]
  · rw [if_neg (by simp [ascii_0x]; omega), if_neg (by simp [ascii_0x])]
    have hd : (ascii "0x" ++ digits).drop 2 = digits := by simp [ascii_0x]
    have hrc : RuneCountInString digits = digits.length :=
      RuneCountInString_ascii digits (fun c hc => (isHexChar_lt c (hall c hc)).1)
    simp only [hd, Sprintf064s, fmtPadString, hrc, if_true]
    rw [ReplaceAllByte_id]
    · simp
    · intro c hc
      rcases List.mem_append.mp hc with h | h
      · rw [List.eq_of_mem_replicate h]; decide
      · exact (isHexChar_lt c (hall c h)).2

/-- Claim C3. For every address accepted by `ValidateAddress`, `NormalizeAddress`
returns a value: `0x`, then `64 - k` zeros, then the `k` hexadecimal digits of the
address unchanged; the result has 66 characters and is accepted again. -/
theorem NormalizeAddress_of_valid (a : GoString) (h : ValidateAddress a = none) :
    ∃ digits, a = ascii "0x" ++ digits ∧
      NormalizeAddress a
        = some (ascii "0x" ++ List.replicate (64 - digits.length) 0x30 ++ digits) ∧
      (ascii "0x" ++ List.replicate (64 - digits.length) 0x30 ++ digits).length = 66 ∧
      ValidateAddress (ascii "0x" ++ List.replicate (64 - digits.length) 0x30 ++ digits)
        = none := by
  obtain ⟨digits, rfl, hl, hu, hall⟩ := (ValidateAddress_eq_none_iff a).mp h
  refine ⟨digits, rfl, NormalizeAddress_of_digits digits hl hu hall, ?_, ?_⟩
  · simp [ascii_0x]; omega
  · rw [ValidateAddress_eq_none_iff]
    refine ⟨List.replicate (64 - digits.length) 0x30 ++ digits, by simp, ?_, ?_, ?_⟩
    · simp; omega
    · simp; omega
    · intro c hc
      rcases List.mem_append.mp hc with h | h
      · rw [List.eq_of_mem_replicate h]; decide
      · exact hall c h

/-- The address `0x1` is accepted and normalises to `0x`, 63 zeros and `1`. -/
theorem NormalizeAddress_of_valid_witness :
    ValidateAddress (ascii "0x1") = none ∧
    NormalizeAddress (ascii "0x1") = some (ascii "0x" ++ List.replicate 63 0x30 ++ ascii "1") ∧
    ∃ digits, ascii "0x1" = ascii "0x" ++ digits ∧
      NormalizeAddress (ascii "0x1")
        = some (ascii "0x" ++ List.replicate (64 - digits.length) 0x30 ++ digits) ∧
      (ascii "0x" ++ List.replicate (64 - digits.length) 0x30 ++ digits).length = 66 ∧
      ValidateAddress (ascii "0x" ++ List.replicate (64 - digits.length) 0x30 ++ digits)
        = none :=
  ⟨by decide, by decide, NormalizeAddress_of_valid (ascii "0x1") (by decide)⟩

/-- Idempotence on the address `0x1`. -/
theorem NormalizeAddress_idempotent_witness :
    2 ≤ (ascii "0x1").length ∧
    ∃ r, NormalizeAddress (ascii "0x1") = some r ∧ NormalizeAddress r = some r ∧
      NormalizeStarknetAddress (ascii "0x1") = some r ∧ NormalizeStarknetAddress r = some r :=
  ⟨by decide, NormalizeAddress_idempotent (ascii "0x1") (by decide)⟩

theorem stripLeadingZeros_spec (d : GoString) :
    (stripLeadingZeros d).length ≤ d.length ∧
    d = List.replicate (d.length - (stripLeadingZeros d).length) 0x30 ++ stripLeadingZeros d := by
  unfold stripLeadingZeros
  induction d with
  | nil => simp
  | cons c rest ih =>
    by_cases hc : c = 0x30
    · subst hc
      obtain ⟨h1, h2⟩ := ih
      simp only [List.dropWhile_cons, beq_self_eq_true, if_true, List.length_cons]
      refine ⟨by omega, ?_⟩
      have : rest.length + 1 - (List.dropWhile (fun c => c == 0x30) rest).length
          = (rest.length - (List.dropWhile (fun c => c == 0x30) rest).length) + 1 := by omega
      rw [this, List.replicate_succ, List.cons_append, ← h2]
    · have : (c == 0x30) = false := by simpa using hc
      simp [List.dropWhile_cons, this]

/-- Leading zeros do not matter: two accepted addresses whose digits agree once the
leading zeros are removed have the same normal form. -/
theorem NormalizeAddress_leading_zeros (a b : GoString)
    (ha : ValidateAddress a = none) (hb : ValidateAddress b = none)
    (h : stripLeadingZeros (a.drop 2) = stripLeadingZeros (b.drop 2)) :
    NormalizeAddress a = NormalizeAddress b := by
  obtain ⟨da, rfl, hla, hua, halla⟩ := (ValidateAddress_eq_none_iff a).mp ha
  obtain ⟨db, rfl, hlb, hub, hallb⟩ := (ValidateAddress_eq_none_iff b).mp hb
  have e1 : (ascii "0x" ++ da).drop 2 = da := by simp [ascii_0x]
  have e2 : (ascii "0x" ++ db).drop 2 = db := by simp [ascii_0x]
  rw [e1, e2] at h
  rw [NormalizeAddress_of_digits da hla hua halla, NormalizeAddress_of_digits db hlb hub hallb]
  obtain ⟨ka, sa⟩ := stripLeadingZeros_spec da
  obtain ⟨kb, sb⟩ := stripLeadingZeros_spec db
  have key : ∀ (z : Nat) (s d : GoString), d = List.replicate z 0x30 ++ s → d.length ≤ 64 →
      List.replicate (64 - d.length) 0x30 ++ d = List.replicate (64 - s.length) 0x30 ++ s := by
    intro z s d hs hd
    subst hs
    simp only [List.length_append, List.length_replicate] at hd ⊢
    rw [← List.append_assoc, List.append_replicate_replicate]
    congr 2
    omega
  simp only [List.append_assoc]
  rw [key _ _ da sa hua, key _ _ db sb hub, h]

/-- The addresses `0x1` and `0x0001` have the same normal form. -/
theorem NormalizeAddress_leading_zeros_witness :
    NormalizeAddress (ascii "0x1") = NormalizeAddress (ascii "0x0001") :=
  NormalizeAddress_leading_zeros (ascii "0x1") (ascii "0x0001") (by decide) (by decide)
    (by decide)

/-- Claim C9, evaluated at the failing input. The addresses `0xa` and `0xA` are both
accepted and denote the same number, ten, but `NormalizeAddress` returns two
different strings for them: the letter case of the digits is kept. -/
theorem NormalizeAddress_keeps_letter_case :
    ValidateAddress (ascii "0xa") = none ∧ ValidateAddress (ascii "0xA") = none ∧
    hexValue (ascii "a") = 10 ∧ hexValue (ascii "A") = 10 ∧
    NormalizeAddress (ascii "0xa") = some (ascii "0x" ++ List.replicate 63 0x30 ++ ascii "a") ∧
    NormalizeAddress (ascii "0xA") = some (ascii "0x" ++ List.replicate 63 0x30 ++ ascii "A") ∧
    NormalizeAddress (ascii "0xa") ≠ NormalizeAddress (ascii "0xA") := by
  refine ⟨by decide, by decide, by decide, by decide, by decide, by decide, by decide⟩

/-! ## The client -/

/-- Claim C5, as amended. For every recipient string that the SDK parser rejects,
`TransferTokens` returns the invalid-recipient error and hands no transaction to
the account, whatever the token and the amount. -/
theorem TransferTokens_unparsed_recipient (c : Client) (recipient token : GoString)
    (amount : Int) (h : c.HexToFelt recipient = none) :
    TransferTokens c recipient token amount = (.error .invalidRecipient, []) := by
  unfold TransferTokens
  rw [h]

/-- A transaction is handed to the account exactly when the recipient parses and
the token is known. -/
theorem TransferTokens_network_iff (c : Client) (recipient token : GoString) (amount : Int) :
    (TransferTokens c recipient token amount).2 ≠ [] ↔
      (c.HexToFelt recipient).isSome = true ∧ (c.tokenAddrs token).isSome = true := by
  unfold TransferTokens
  cases h1 : c.HexToFelt recipient with
  | none => simp
  | some f =>
    cases h2 : c.tokenAddrs token with
    | none => simp
    | some a =>
      simp only [Option.isSome_some, and_self, iff_true]
      split <;> simp

/-- The recipient `0xzz` is rejected by the parser: no transaction is submitted. -/
theorem TransferTokens_unparsed_recipient_witness :
    demoClient.HexToFelt (ascii "0xzz") = none ∧
    TransferTokens demoClient (ascii "0xzz") (ascii "ETH") 5 = (.error .invalidRecipient, []) :=
  ⟨by decide, TransferTokens_unparsed_recipient demoClient (ascii "0xzz") (ascii "ETH") 5
    (by decide)⟩

/-- Claim C5, counterexample. The recipient `1` fails `ValidateAddress` (it does not
start with `0x`), yet `TransferTokens` parses it as the field element 1 and
submits the transfer; the same happens for `0x` followed by 65 zeros. -/
theorem TransferTokens_invalid_address_submits :
    ValidateAddress (ascii "1") = some .missingPrefix ∧
    (TransferTokens demoClient (ascii "1") (ascii "ETH") 5).1 = .hash (ascii "0xabc") ∧
    (TransferTokens demoClient (ascii "1") (ascii "ETH") 5).2 =
      [[{ ContractAddress :=
            Felt.ofNat 0x049d36570d4e46f48e99674bd3fcc84644ddd6b96f7c741b1562b82f9e004dc7
          FunctionName := ascii "transfer"
          CallData := [Felt.ofNat 1, Felt.ofNat 5, Felt.ofNat 0] }]] ∧
    ValidateAddress (ascii "0x" ++ List.replicate 65 0x30) = some .invalidFormat ∧
    (TransferTokens demoClient (ascii "0x" ++ List.replicate 65 0x30) (ascii "ETH") 5).2 ≠ [] := by
  refine ⟨by decide, by decide, by decide, by decide, by decide⟩

/-- Claim C6. When the address parses, the token is known and the read-only call
succeeds with the words `r`, `GetBalance` fails with the unexpected-length
error if `r` has fewer than two words and otherwise returns
`r[0] + r[1] * 2^128`, whatever follows the second word. -/
theorem GetBalance_decodes (c : Client) (address token : GoString) (addrFelt tokenAddress : Felt)
    (r : List Felt)
    (haddr : c.HexToFelt address = some addrFelt)
    (htoken : c.tokenAddrs token = some tokenAddress)
    (hcall : c.Call
        { ContractAddress := tokenAddress
          EntryPointSelector := c.GetSelectorFromNameFelt (ascii "balanceOf")
          Calldata := [addrFelt] } (ascii "latest") = some r) :
    (r.length < 2 → GetBalance c address token = .error .unexpectedLength) ∧
    (∀ r0 r1 rest, r = r0 :: r1 :: rest →
      GetBalance c address token = .balance ((r0.val : Int) + (r1.val : Int) * 2 ^ 128)) := by
  unfold GetBalance
  simp only [haddr, htoken, hcall]
  constructor
  · intro h
    rw [dif_pos h]
  · rintro r0 r1 rest rfl
    rw [dif_neg (by simp)]
    simp only [List.get, uint256FromWords_eq, Felt.BigInt, Nat.cast_inj]

/-- The reply `7, 1, 9` decodes to `7 + 1 * 2^128`. -/
theorem GetBalance_decodes_witness :
    GetBalance demoClient (ascii "0x1") (ascii "ETH") = .balance (7 + 1 * 2 ^ 128) :=
  (GetBalance_decodes demoClient (ascii "0x1") (ascii "ETH") (Felt.ofNat 1)
    (Felt.ofNat 0x049d36570d4e46f48e99674bd3fcc84644ddd6b96f7c741b1562b82f9e004dc7)
    [Felt.ofNat 7, Felt.ofNat 1, Felt.ofNat 9] (by decide) (by decide) (by decide)).2
    (Felt.ofNat 7) (Felt.ofNat 1) [Felt.ofNat 9] rfl

/-- Without cancellation the loop does what the specification says of the polling,
on top of the receipt requests issued before. -/
theorem pollLoop_no_cancellation (h : Felt) (rounds : List SelectRound) :
    (∀ r ∈ rounds, r.done = false) → ∀ fetched : List Felt,
      pollLoop h rounds fetched =
        ((WaitForTransaction_spec h (tickOutcomes rounds)).1,
          (WaitForTransaction_spec h (tickOutcomes rounds)).2 ++ fetched) := by
  induction rounds with
  | nil => intro _ fetched; simp [pollLoop, WaitForTransaction_spec, tickOutcomes]
  | cons r rest ih =>
    intro hno fetched
    have hd : r.done = false := hno r (by simp)
    have ih1 := ih (fun x hx => hno x (by simp [hx]))
    simp only [pollLoop, hd, Bool.false_and, Bool.false_eq_true, if_false, TransactionReceipt,
      requestsAfter]
    by_cases ht : r.tick = true
    · have hto : tickOutcomes (r :: rest) = r.fetch :: tickOutcomes rest := by
        simp [tickOutcomes, ht]
      rw [if_pos ht, hto]
      cases hf : r.fetch with
      | failed =>
        simp only [ih1, WaitForTransaction_spec, List.takeWhile_cons, FetchResult.hasReceipt,
          Bool.not_false, if_true, List.length_cons, Nat.add_lt_add_iff_right]
        split_ifs <;> simp [List.replicate_succ']
      | receipt o =>
        cases o with
        | none =>
          simp only [ih1, WaitForTransaction_spec, List.takeWhile_cons, FetchResult.hasReceipt,
            Bool.not_false, if_true, List.length_cons, Nat.add_lt_add_iff_right]
          split_ifs <;> simp [List.replicate_succ']
        | some rc =>
          simp [WaitForTransaction_spec, FetchResult.hasReceipt]
    · have hto : tickOutcomes (r :: rest) = tickOutcomes rest := by
        simp [tickOutcomes, ht]
      rw [if_neg ht, hto]
      exact ih1 fetched

/-- The loop returns the cancellation error only in a run in which cancellation was
signalled. -/
theorem pollLoop_cancelled_done (h : Felt) (rounds : List SelectRound) :
    ∀ fetched : List Felt, (pollLoop h rounds fetched).1 = .cancelled →
      ∃ r ∈ rounds, r.done = true := by
  induction rounds with
  | nil => intro fetched hc; simp [pollLoop] at hc
  | cons r rest ih =>
    intro fetched hc
    by_cases hd : r.done = true
    · exact ⟨r, by simp, hd⟩
    · have hd1 : r.done = false := by simpa using hd
      simp only [pollLoop, hd1, Bool.false_and, Bool.false_eq_true, if_false, TransactionReceipt,
        requestsAfter] at hc
      have step : ∀ f, (pollLoop h rest f).1 = .cancelled → ∃ x ∈ r :: rest, x.done = true := by
        intro f hf
        obtain ⟨x, hx, hxd⟩ := ih f hf
        exact ⟨x, by simp [hx], hxd⟩
      split_ifs at hc
      · cases hf : r.fetch with
        | failed => rw [hf] at hc; exact step _ hc
        | receipt o =>
          cases o with
          | none => rw [hf] at hc; exact step _ hc
          | some rc => rw [hf] at hc; simp at hc
      · exact step _ hc

/-- Claim C11. For every transaction hash that parses and every run without
cancellation, `WaitForTransaction` does what the specification says of the
polling: a receipt is requested at every tick, a failed fetch is followed by the
fetch of the next tick, and the result is success or still waiting, never an
error. At the first tick whose fetch yields a non-empty receipt the call returns
success, after one request per tick so far, whether the receipt says accepted or
rejected. In any run, cancelled or not, the invalid-hash error needs a hash that
does not parse and the cancellation error needs a cancellation. -/
theorem WaitForTransaction_retries_fetch_errors (c : Client) (txHash : GoString) (h : Felt)
    (rounds : List SelectRound)
    (hhash : c.HexToFelt txHash = some h)
    (hno : ∀ r ∈ rounds, r.done = false) :
    WaitForTransaction c txHash rounds = WaitForTransaction_spec h (tickOutcomes rounds) ∧
    ((WaitForTransaction c txHash rounds).1 = .success ∨
      (WaitForTransaction c txHash rounds).1 = .waiting) ∧
    (∀ pre r rc rest, rounds = pre ++ r :: rest →
        r.tick = true → r.fetch = .receipt (some rc) →
        (∀ x ∈ pre, x.tick = true → x.fetch.hasReceipt = false) →
        WaitForTransaction c txHash rounds
          = (.success, List.replicate ((tickOutcomes pre).length + 1) h)) ∧
    (∀ others : List SelectRound,
      (WaitForTransaction c txHash others).1 ≠ .invalidHash ∧
      ((WaitForTransaction c txHash others).1 = .cancelled → ∃ r ∈ others, r.done = true)) := by
  have hrun : WaitForTransaction c txHash rounds
      = WaitForTransaction_spec h (tickOutcomes rounds) := by
    unfold WaitForTransaction
    rw [hhash]
    simp only
    rw [pollLoop_no_cancellation h rounds hno []]
    simp
  refine ⟨hrun, ?_, ?_, ?_⟩
  · rw [hrun]
    unfold WaitForTransaction_spec
    simp only
    split_ifs <;> simp
  · intro pre r rc rest hr ht hf hpre
    rw [hrun, hr]
    have hto : tickOutcomes (pre ++ r :: rest)
        = tickOutcomes pre ++ FetchResult.receipt (some rc) :: tickOutcomes rest := by
      simp [tickOutcomes, ht, hf]
    have hall : ∀ f ∈ tickOutcomes pre, (!f.hasReceipt) = true := by
      intro f hf
      simp only [tickOutcomes, List.mem_map, List.mem_filter] at hf
      obtain ⟨x, ⟨hx1, hx2⟩, rfl⟩ := hf
      simp [hpre x hx1 hx2]
    have htw : (tickOutcomes pre ++ FetchResult.receipt (some rc) :: tickOutcomes rest).takeWhile
        (fun f => !f.hasReceipt) = tickOutcomes pre := by
      rw [List.takeWhile_append_of_pos hall]
      simp [FetchResult.hasReceipt]
    unfold WaitForTransaction_spec
    simp only [hto, htw]
    rw [if_pos (by simp)]
  · intro others
    unfold WaitForTransaction
    rw [hhash]
    simp only
    constructor
    · intro hinv
      have : ∀ (rs : List SelectRound) (f : List Felt), (pollLoop h rs f).1 ≠ .invalidHash := by
        intro rs
        induction rs with
        | nil => intro f; simp [pollLoop]
        | cons r rest ih =>
          intro f
          simp only [pollLoop]
          split_ifs
          · simp
          · cases hf : TransactionReceipt r.done r.fetch with
            | failed => exact ih _
            | receipt o =>
              cases o with
              | none => exact ih _
              | some rc => simp
          · exact ih _
      exact this others [] hinv
    · exact pollLoop_cancelled_done h others []

/-- A failed fetch, a round without tick, an empty receipt and then the receipt of
a rejected transaction: success after three requests; the fetch after it is
never issued. -/
theorem WaitForTransaction_retries_fetch_errors_witness :
    WaitForTransaction demoClient (ascii "0x1")
      [{ done := false, tick := true, pickTick := true, fetch := .failed },
       { done := false, tick := false, pickTick := true, fetch := .failed },
       { done := false, tick := true, pickTick := true, fetch := .receipt none },
       { done := false, tick := true, pickTick := true, fetch := .receipt (some ⟨false⟩) },
       { done := false, tick := true, pickTick := true, fetch := .failed }]
      = (.success, [Felt.ofNat 1, Felt.ofNat 1, Felt.ofNat 1]) :=
  ((WaitForTransaction_retries_fetch_errors demoClient (ascii "0x1") (Felt.ofNat 1)
    [{ done := false, tick := true, pickTick := true, fetch := .failed },
     { done := false, tick := false, pickTick := true, fetch := .failed },
     { done := false, tick := true, pickTick := true, fetch := .receipt none },
     { done := false, tick := true, pickTick := true, fetch := .receipt (some ⟨false⟩) },
     { done := false, tick := true, pickTick := true, fetch := .failed }]
    (by decide) (by decide)).1).trans (by decide)

/-! ## Token validation -/

theorem DecodeRuneInString_ascii (c : Nat) (rest : GoString) (h : c < 0x80) :
    DecodeRuneInString (c :: rest) = (c, 1) := by
  simp [DecodeRuneInString, h]

theorem leadSize_cases (c : Nat) :
    (c < 0xE0 → leadSize c = 2) ∧ (0xE0 ≤ c → c < 0xF0 → leadSize c = 3) ∧
      (0xF0 ≤ c → leadSize c = 4) := by
  unfold leadSize
  refine ⟨?_, ?_, ?_⟩ <;> intros <;> split_ifs <;> omega

theorem acceptLo_cases (c : Nat) :
    0x80 ≤ acceptLo c ∧ (c = 0xE0 → acceptLo c = 0xA0) ∧ (c = 0xF0 → acceptLo c = 0x90) := by
  unfold acceptLo
  refine ⟨?_, ?_, ?_⟩ <;> intros <;> split_ifs <;> omega

theorem acceptHi_le (c : Nat) : acceptHi c ≤ 0xBF := by
  unfold acceptHi
  split_ifs <;> omega

/-- The four outcomes of decoding a rune: an ASCII byte, an invalid encoding, a
two-byte encoding, or a rune of `0x800` and more. -/
theorem DecodeRuneInString_cases (c : Nat) (rest : GoString) :
    (c < 0x80 ∧ DecodeRuneInString (c :: rest) = (c, 1)) ∨
    (0x80 ≤ c ∧ DecodeRuneInString (c :: rest) = (RuneError, 1)) ∨
    (∃ s1 rest1, rest = s1 :: rest1 ∧ 0xC2 ≤ c ∧ c < 0xE0 ∧ 0x80 ≤ s1 ∧ s1 ≤ 0xBF ∧
      DecodeRuneInString (c :: rest) = (c % 0x20 * 0x40 + s1 % 0x40, 2)) ∨
    (0x80 ≤ c ∧ 0x800 ≤ (DecodeRuneInString (c :: rest)).1) := by
  have hs := leadSize_cases c
  have hl := acceptLo_cases c
  have hh := acceptHi_le c
  by_cases h1 : c < 0x80
  · exact Or.inl ⟨h1, DecodeRuneInString_ascii c rest h1⟩
  have hc : 0x80 ≤ c := by omega
  by_cases h2 : c < 0xC2 ∨ 0xF4 < c
  · exact Or.inr (Or.inl ⟨hc, by simp only [DecodeRuneInString, if_neg h1, if_pos h2]⟩)
  by_cases h3 : rest.length + 1 < leadSize c
  · exact Or.inr (Or.inl ⟨hc, by simp only [DecodeRuneInString, if_neg h1, if_neg h2, if_pos h3]⟩)
  rcases rest with _ | ⟨s1, rest1⟩
  · exact Or.inr (Or.inl ⟨hc, by simp only [DecodeRuneInString, if_neg h1, if_neg h2, if_neg h3]⟩)
  by_cases h4 : s1 < acceptLo c ∨ acceptHi c < s1
  · exact Or.inr (Or.inl ⟨hc, by
      simp only [DecodeRuneInString, if_neg h1, if_neg h2, if_neg h3, if_pos h4]⟩)
  by_cases h5 : leadSize c ≤ 2
  · exact Or.inr (Or.inr (Or.inl ⟨s1, rest1, rfl, by omega, by omega, by omega, by omega, by
      simp only [DecodeRuneInString, if_neg h1, if_neg h2, if_neg h3, if_neg h4, if_pos h5]⟩))
  rcases rest1 with _ | ⟨s2, rest2⟩
  · exact Or.inr (Or.inl ⟨hc, by
      simp only [DecodeRuneInString, if_neg h1, if_neg h2, if_neg h3, if_neg h4, if_neg h5]⟩)
  by_cases h6 : s2 < 0x80 ∨ 0xBF < s2
  · exact Or.inr (Or.inl ⟨hc, by
      simp only [DecodeRuneInString, if_neg h1, if_neg h2, if_neg h3, if_neg h4, if_neg h5,
        if_pos h6]⟩)
  by_cases h7 : leadSize c ≤ 3
  · refine Or.inr (Or.inr (Or.inr ⟨hc, ?_⟩))
    simp only [DecodeRuneInString, if_neg h1, if_neg h2, if_neg h3, if_neg h4, if_neg h5,
      if_neg h6, if_pos h7]
    omega
  rcases rest2 with _ | ⟨s3, rest3⟩
  · exact Or.inr (Or.inl ⟨hc, by
      simp only [DecodeRuneInString, if_neg h1, if_neg h2, if_neg h3, if_neg h4, if_neg h5,
        if_neg h6, if_neg h7]⟩)
  by_cases h8 : s3 < 0x80 ∨ 0xBF < s3
  · exact Or.inr (Or.inl ⟨hc, by
      simp only [DecodeRuneInString, if_neg h1, if_neg h2, if_neg h3, if_neg h4, if_neg h5,
        if_neg h6, if_neg h7, if_pos h8]⟩)
  · refine Or.inr (Or.inr (Or.inr ⟨hc, ?_⟩))
    simp only [DecodeRuneInString, if_neg h1, if_neg h2, if_neg h3, if_neg h4, if_neg h5,
      if_neg h6, if_neg h7, if_neg h8]
    omega

theorem DecodeRuneInString_ge (c : Nat) (rest : GoString) (h : 0x80 ≤ c) :
    0x80 ≤ (DecodeRuneInString (c :: rest)).1 := by
  rcases DecodeRuneInString_cases c rest with h1 | h1 | ⟨s1, rest1, _, h2, h3, h4, h5, h6⟩ | h1
  · omega
  · rw [h1.2]; decide
  · rw [h6]; simp only []; omega
  · omega

theorem DecodeRuneInString_longS (c : Nat)
    (rest : GoString) (h : (DecodeRuneInString (c :: rest)).1 = 0x17F) :
    c = 0xC5 ∧ ∃ rest1, rest = 0xBF :: rest1 ∧ (DecodeRuneInString (c :: rest)).2 = 2 := by
  rcases DecodeRuneInString_cases c rest with h1 | h1 | ⟨s1, rest1, hr, h2, h3, h4, h5, h6⟩ | h1
  · rw [h1.2] at h; simp only [] at h; omega
  · rw [h1.2] at h; simp only [RuneError] at h; omega
  · rw [h6] at h ⊢
    simp only [] at h
    subst hr
    exact ⟨by omega, rest1, by congr 1; omega, rfl⟩
  · omega

theorem DecodeRuneInString_dotlessI (c : Nat)
    (rest : GoString) (h : (DecodeRuneInString (c :: rest)).1 = 0x131) :
    c = 0xC4 ∧ ∃ rest1, rest = 0xB1 :: rest1 ∧ (DecodeRuneInString (c :: rest)).2 = 2 := by
  rcases DecodeRuneInString_cases c rest with h1 | h1 | ⟨s1, rest1, hr, h2, h3, h4, h5, h6⟩ | h1
  · rw [h1.2] at h; simp only [] at h; omega
  · rw [h1.2] at h; simp only [RuneError] at h; omega
  · rw [h6] at h ⊢
    simp only [] at h
    subst hr
    exact ⟨by omega, rest1, by congr 1; omega, rfl⟩
  · omega

theorem EncodeRune_ascii (x : Nat) (h : x < 0x80) : EncodeRune x = [x] := by
  unfold EncodeRune
  rw [if_pos (by omega)]

theorem EncodeRune_nonascii (x : Nat) (h : 0x80 ≤ x) :
    ∃ b bs, EncodeRune x = b :: bs ∧ 0x80 ≤ b := by
  unfold EncodeRune
  split_ifs
  · omega
  · exact ⟨_, _, rfl, by omega⟩
  · exact ⟨_, _, rfl, by omega⟩
  · exact ⟨_, _, rfl, by omega⟩
  · exact ⟨_, _, rfl, by omega⟩

theorem mapFrom_skip (up : Nat → Nat) (s : GoString) :
    ∀ k, mapFrom up s k = mapFrom up (s.drop k) 0 := by
  induction s with
  | nil => intro k; simp [mapFrom]
  | cons c rest ih =>
    intro k
    cases k with
    | zero => rfl
    | succ k => simp only [mapFrom, List.drop_succ_cons]; exact ih k

theorem mapFrom_cons (up : Nat → Nat) (c : Nat) (rest : GoString) :
    mapFrom up (c :: rest) 0 =
      EncodeRune (up (DecodeRuneInString (c :: rest)).1)
        ++ mapFrom up (rest.drop ((DecodeRuneInString (c :: rest)).2 - 1)) 0 := by
  rw [mapFrom, mapFrom_skip up rest]

/-- The ASCII shortcut of `strings.ToUpper` agrees with the rune-by-rune mapping. -/
theorem ToUpper_eq_Map (up : Nat → Nat) (hup : UpperCaseMapping up) (s : GoString) :
    ToUpper up s = Map up s := by
  unfold ToUpper
  split_ifs with h
  · unfold Map
    induction s with
    | nil => rfl
    | cons c rest ih =>
      simp only [List.all_cons, Bool.and_eq_true, decide_eq_true_eq] at h
      rw [mapFrom_cons, DecodeRuneInString_ascii c rest h.1, hup.onASCII c h.1]
      simp only [List.map_cons, Nat.sub_self, List.drop_zero]
      rw [ih h.2, EncodeRune_ascii]
      · rfl
      · split_ifs <;> omega
  · rfl

theorem mapFrom_nil_iff (up : Nat → Nat) (t : GoString) : mapFrom up t 0 = [] ↔ t = [] := by
  constructor
  · intro h
    cases t with
    | nil => rfl
    | cons c rest =>
      exfalso
      rw [mapFrom_cons] at h
      have h1 := (List.append_eq_nil.mp h).1
      by_cases hx : up (DecodeRuneInString (c :: rest)).1 < 0x80
      · rw [EncodeRune_ascii _ hx] at h1; simp at h1
      · obtain ⟨b, bs, hb, _⟩ := EncodeRune_nonascii _ (Nat.le_of_not_lt hx)
        rw [hb] at h1; simp at h1
  · rintro rfl; rfl

theorem upper_preimage (up : Nat → Nat) (hup : UpperCaseMapping up) (r u : Nat)
    (hu : 0x41 ≤ u ∧ u ≤ 0x5A) (h : up r = u) :
    r = u ∨ r = u + 0x20 ∨ (r = 0x17F ∧ u = 0x53) ∨ (r = 0x131 ∧ u = 0x49) := by
  by_cases hr : r < 0x80
  · rw [hup.onASCII r hr] at h
    split_ifs at h <;> omega
  · by_cases h1 : r = 0x17F
    · subst h1; rw [hup.longS] at h; omega
    · by_cases h2 : r = 0x131
      · subst h2; rw [hup.dotlessI] at h; omega
      · have := hup.others r (by omega) h1 h2
        omega

theorem mem_letterForms (u : Nat) (f : GoString) :
    f ∈ letterForms u ↔
      f = [u] ∨ f = [u + 0x20] ∨ (u = 0x53 ∧ f = [0xC5, 0xBF]) ∨ (u = 0x49 ∧ f = [0xC4, 0xB1]) := by
  unfold letterForms
  split_ifs with h1 h2
  · subst h1; simp
  · subst h2; simp
  · simp [h1, h2]

theorem equalIgnoringCase_cons (u : Nat) (us t : GoString) :
    equalIgnoringCase (u :: us) t = true ↔
      ∃ f t1, f ∈ letterForms u ∧ t = f ++ t1 ∧ equalIgnoringCase us t1 = true := by
  simp only [equalIgnoringCase, List.any_eq_true, Bool.and_eq_true]
  constructor
  · rintro ⟨f, hf, hp, he⟩
    refine ⟨f, t.drop f.length, hf, ?_, he⟩
    have hp1 : t.take f.length = f := by simpa using hp
    conv_lhs => rw [← List.take_append_drop f.length t]
    rw [hp1]
  · rintro ⟨f, t1, hf, rfl, he⟩
    refine ⟨f, hf, ?_, ?_⟩
    · simp
    · simpa using he

/-- Upper-casing gives a word of capital ASCII letters exactly for the spellings of
that word with letter case ignored. -/
theorem Map_eq_iff (up : Nat → Nat) (hup : UpperCaseMapping up) (target : GoString) :
    (∀ u ∈ target, 0x41 ≤ u ∧ u ≤ 0x5A) →
    ∀ t, mapFrom up t 0 = target ↔ equalIgnoringCase target t = true := by
  induction target with
  | nil =>
    intro _ t
    rw [mapFrom_nil_iff]
    simp [equalIgnoringCase]
  | cons u us ih =>
    intro hcap t
    have hu : 0x41 ≤ u ∧ u ≤ 0x5A := hcap u (by simp)
    have ih1 := ih (fun x hx => hcap x (by simp [hx]))
    rw [equalIgnoringCase_cons]
    constructor
    · intro h
      cases t with
      | nil => simp [mapFrom] at h
      | cons c rest =>
        rw [mapFrom_cons] at h
        by_cases hx : up (DecodeRuneInString (c :: rest)).1 < 0x80
        · rw [EncodeRune_ascii _ hx] at h
          simp only [List.singleton_append, List.cons.injEq] at h
          obtain ⟨hup1, hrest⟩ := h
          have hrest1 := (ih1 _).mp hrest
          rcases upper_preimage up hup _ u hu hup1 with hr | hr | ⟨hr, hs⟩ | ⟨hr, hs⟩
          · have hc : c < 0x80 := by
              by_contra hcn
              have := DecodeRuneInString_ge c rest (by omega)
              omega
            rw [DecodeRuneInString_ascii c rest hc] at hr hrest1
            simp only [Nat.sub_self, List.drop_zero] at hr hrest1
            exact ⟨[u], rest, (mem_letterForms u _).mpr (Or.inl rfl), by simp [hr], hrest1⟩
          · have hc : c < 0x80 := by
              by_contra hcn
              have := DecodeRuneInString_ge c rest (by omega)
              omega
            rw [DecodeRuneInString_ascii c rest hc] at hr hrest1
            simp only [Nat.sub_self, List.drop_zero] at hr hrest1
            exact ⟨[u + 0x20], rest, (mem_letterForms u _).mpr (Or.inr (Or.inl rfl)),
              by simp [hr], hrest1⟩
          · obtain ⟨hc, rest1, hr1, hsz⟩ := DecodeRuneInString_longS c rest hr
            rw [hsz] at hrest1
            subst hr1 hc
            exact ⟨[0xC5, 0xBF], rest1,
              (mem_letterForms u _).mpr (Or.inr (Or.inr (Or.inl ⟨hs, rfl⟩))), by simp,
              by simpa using hrest1⟩
          · obtain ⟨hc, rest1, hr1, hsz⟩ := DecodeRuneInString_dotlessI c rest hr
            rw [hsz] at hrest1
            subst hr1 hc
            exact ⟨[0xC4, 0xB1], rest1,
              (mem_letterForms u _).mpr (Or.inr (Or.inr (Or.inr ⟨hs, rfl⟩))), by simp,
              by simpa using hrest1⟩
        · exfalso
          obtain ⟨b, bs, hb, hbge⟩ := EncodeRune_nonascii _ (Nat.le_of_not_lt hx)
          rw [hb] at h
          simp only [List.cons_append, List.cons.injEq] at h
          omega
    · rintro ⟨f, t1, hf, rfl, he⟩
      have he1 := (ih1 t1).mpr he
      rcases (mem_letterForms u f).mp hf with rfl | rfl | ⟨hs, rfl⟩ | ⟨hs, rfl⟩
      · rw [List.singleton_append, mapFrom_cons, DecodeRuneInString_ascii u t1 (by omega),
          hup.onASCII u (by omega), if_neg (by omega), EncodeRune_ascii u (by omega)]
        simpa using he1
      · rw [List.singleton_append, mapFrom_cons, DecodeRuneInString_ascii _ t1 (by omega),
          hup.onASCII _ (by omega), if_pos (by omega), EncodeRune_ascii _ (by omega)]
        simp only [Nat.add_sub_cancel, List.singleton_append, Nat.sub_self, List.drop_zero, he1]
      · have hd : DecodeRuneInString (0xC5 :: 0xBF :: t1) = (0x17F, 2) := by
          simp [DecodeRuneInString, leadSize, acceptLo, acceptHi]
        show mapFrom up (0xC5 :: 0xBF :: t1) 0 = u :: us
        rw [mapFrom_cons, hd]
        simp only [hup.longS, List.drop_succ_cons, List.drop_zero, he1]
        rw [EncodeRune_ascii _ (by omega), hs]
        rfl
      · have hd : DecodeRuneInString (0xC4 :: 0xB1 :: t1) = (0x131, 2) := by
          simp [DecodeRuneInString, leadSize, acceptLo, acceptHi]
        show mapFrom up (0xC4 :: 0xB1 :: t1) 0 = u :: us
        rw [mapFrom_cons, hd]
        simp only [hup.dotlessI, List.drop_succ_cons, List.drop_zero, he1]
        rw [EncodeRune_ascii _ (by omega), hs]
        rfl

/-- The mapping of the concrete runs has the properties used. -/
theorem upperCore_mapping : UpperCaseMapping upperCore where
  onASCII := by intro r hr; simp only [upperCore, if_pos hr]
  longS := by decide
  dotlessI := by decide
  others := by
    intro r h1 h2 h3
    simp only [upperCore]
    rw [if_neg (by omega), if_neg h2, if_neg h3]
    exact h1

/-- Claim C8. For every string `t`, `ValidateToken` returns no error exactly when `t`
is `ETH` or `STRK` with letter case ignored (each letter a capital or a small
letter, the small letters of `S` being `s` and the long s), that is exactly when
the upper-cased `t` is one of the supported tokens; every other string gets the
invalid-token error. The client method is the same function. -/
theorem ValidateToken_ignores_case (c : Client) (up : Nat → Nat)
    (hup : UpperCaseMapping up) (t : GoString) :
    (ValidateToken up t = none ↔
      equalIgnoringCase (ascii "ETH") t = true ∨ equalIgnoringCase (ascii "STRK") t = true) ∧
    (ValidateToken up t = none ↔ ToUpper up t ∈ GetSupportedTokens) ∧
    (ValidateToken up t ≠ none → ValidateToken up t = some .invalidToken) ∧
    Client.ValidateToken c up t = ValidateToken up t := by
  have h1 := Map_eq_iff up hup (ascii "ETH") (by decide) t
  have h2 := Map_eq_iff up hup (ascii "STRK") (by decide) t
  have hm : ToUpper up t = mapFrom up t 0 := ToUpper_eq_Map up hup t
  refine ⟨?_, ?_, ?_, rfl⟩
  · rw [← h1, ← h2, ← hm]
    unfold ValidateToken
    simp only []
    split_ifs with h
    · simp only [reduceCtorEq, false_iff]; tauto
    · simp only [true_iff]; tauto
  · unfold ValidateToken GetSupportedTokens
    simp only [List.mem_cons, List.mem_singleton, List.not_mem_nil, or_false]
    split_ifs with h
    · simp only [reduceCtorEq, false_iff]; tauto
    · simp only [true_iff]; tauto
  · intro _
    cases h : ValidateToken up t with
    | none => contradiction
    | some e => cases e; rfl

/-- The token `eth` is accepted and `DOGE` is rejected. -/
theorem ValidateToken_ignores_case_witness :
    ValidateToken upperCore (ascii "eth") = none ∧
    ValidateToken upperCore (ascii "DOGE") = some .invalidToken ∧
    (ValidateToken upperCore (ascii "eth") = none ↔
      equalIgnoringCase (ascii "ETH") (ascii "eth") = true ∨
        equalIgnoringCase (ascii "STRK") (ascii "eth") = true) :=
  ⟨by decide, by decide,
    (ValidateToken_ignores_case demoClient upperCore upperCore_mapping (ascii "eth")).1⟩

/-! ## The unit converter -/

theorem bitLenFuel_spec (fuel : Nat) : ∀ n, n ≤ fuel →
    n < 2 ^ bitLenFuel fuel n ∧ (n ≠ 0 → 2 ^ (bitLenFuel fuel n - 1) ≤ n) := by
  induction fuel with
  | zero =>
    intro n hn
    have : n = 0 := by omega
    subst this
    simp [bitLenFuel]
  | succ fuel ih =>
    intro n hn
    unfold bitLenFuel
    split_ifs with h0
    · subst h0; simp
    · have hle : n / 2 ≤ fuel := by omega
      obtain ⟨h1, h2⟩ := ih (n / 2) hle
      constructor
      · rw [pow_succ]; omega
      · intro _
        simp only [Nat.add_sub_cancel]
        by_cases hz : n / 2 = 0
        · have : bitLenFuel fuel (n / 2) = 0 := by
            rw [hz]; cases fuel <;> simp [bitLenFuel]
          rw [this]; simp; omega
        · have h3 := h2 hz
          have hpos : 0 < bitLenFuel fuel (n / 2) := by
            by_contra hc
            have : bitLenFuel fuel (n / 2) = 0 := by omega
            rw [this] at h1
            simp at h1
            exact hz h1
          have : bitLenFuel fuel (n / 2) = (bitLenFuel fuel (n / 2) - 1) + 1 := by omega
          rw [this, pow_succ]
          omega

/-- The function `bitLen` is the bit length: `2^(bitLen n - 1) ≤ n < 2^(bitLen n)`. -/
theorem bitLen_spec (n : Nat) : n < 2 ^ bitLen n ∧ (n ≠ 0 → 2 ^ (bitLen n - 1) ≤ n) :=
  bitLenFuel_spec n n (Nat.le_refl n)

/-- The float of `10^18` has precision 64. -/
theorem weiPerToken_eq :
    BigFloat.SetInt ((10 : Int) ^ 18) = .finite 64 false 1000000000000000000 0 := by
  decide

/-- When the product of the mantissa and `10^18` fits in 64 bits nothing is rounded:
`AmountToWei` returns the amount times `10^18`, truncated towards zero. -/
theorem AmountToWei_exact (neg : Bool) (m : Nat) (e : Int)
    (h : bitLen (m * 1000000000000000000) ≤ 64) :
    AmountToWei (.finite neg m e) =
      .value (if neg then
          -((if 0 ≤ e then m * 1000000000000000000 * 2 ^ e.toNat
              else m * 1000000000000000000 / 2 ^ (-e).toNat : Nat) : Int)
        else ((if 0 ≤ e then m * 1000000000000000000 * 2 ^ e.toNat
              else m * 1000000000000000000 / 2 ^ (-e).toNat : Nat) : Int)) := by
  unfold AmountToWei
  rw [weiPerToken_eq]
  simp only [BigFloat.NewFloat, BigFloat.Mul, BigFloat.precision, BigFloat.Int, roundToPrec,
    if_pos h, show (53 : Nat) ≤ 64 from by decide, if_true, add_zero, Bool.xor_false]

/-- The amount `1.5` is `3 * 2^-1`: the result is `3 * 10^18 / 2`. -/
theorem AmountToWei_exact_witness :
    AmountToWei (.finite false 3 (-1)) = .value (1500000000000000000 : Nat) :=
  AmountToWei_exact false 3 (-1) (by decide)

/-- Claim C10. `AmountToWei(1.5)` is `1500000000000000000` and
`WeiToAmount(1000000000000000000)` is the `float64` `2^52 * 2^-52`, that is `1.0`. -/
theorem unit_converter_examples :
    AmountToWei (.finite false 3 (-1)) = .value 1500000000000000000 ∧
    WeiToAmount 1000000000000000000 = some (.finite false 4503599627370496 (-52)) ∧
    Float64.sameValue (.finite false 4503599627370496 (-52)) (.finite false 1 0) = true := by
  refine ⟨by decide, by decide, by decide⟩

end Faucet
